import Mathlib

/-!
Shallow embedding of the core of the SuperReconciliation repository
(UdeM-LBIT/SuperReconciliation): the extended-integer arithmetic
(`src/util/ExtendedNumber.tpp`), the synteny primitives
(`src/model/Synteny.cpp`), the event model (`src/model/Event.cpp`),
the erasure step (`src/algo/erase.cpp`), the ordered super-reconciliation
(`src/algo/super_reconciliation.cpp`) and the unordered
super-reconciliation (`src/algo/unordered_super_reconciliation.cpp`).

Genes are strings (`Gene.hpp` is not part of the sources given, but every
use site treats `Gene` as `std::string`: stream extraction into a string,
string literals in the tests, and the spec states "strings in practice").
C++ exceptions (`std::invalid_argument`, `std::domain_error`) are modelled
by `Except Unit` / `Option`: a thrown exception becomes `.error ()` /
`none`.
-/

/-- A gene family identifier (`std::string` in the source). -/
abbrev Gene := String

/-- `Synteny` is an ordered block of genes (`class Synteny : public
std::list<Gene>`). -/
abbrev Synteny := List Gene

/-- `Synteny::Segment = std::pair<std::size_t, std::size_t>`: a pair of
indices `(begin, end)` denoting the genes in the half-open range
`[begin, end)`. -/
abbrev Segment := Nat × Nat

/-- `Synteny::NoSegment`, the default-constructed pair `(0, 0)`. -/
def NoSegment : Segment := (0, 0)

/-- `ExtendedNumber<int>`: a stored value and an infinity flag.  The C++
member `T value` is an `int`; the sources never overflow it in the claims
at hand, so it is modelled by `Int`. -/
structure ExtendedNumber where
  value : Int
  infinity_flag : Bool := false
deriving DecidableEq, Repr

/-- The one-argument constructor `ExtendedNumber(const T&)`. -/
def ExtendedNumber.ofInt (v : Int) : ExtendedNumber := ⟨v, false⟩

/-- `ExtendedNumber<T>::positiveInfinity()`: value `+1`, flag set. -/
def ExtendedNumber.positiveInfinity : ExtendedNumber := ⟨1, true⟩

/-- `ExtendedNumber<T>::negativeInfinity()`: value `-1`, flag set. -/
def ExtendedNumber.negativeInfinity : ExtendedNumber := ⟨-1, true⟩

/-- `isPositiveInfinity()`: flag set and value positive. -/
def ExtendedNumber.isPositiveInfinity (a : ExtendedNumber) : Bool :=
  a.infinity_flag && decide (0 < a.value)

/-- `isNegativeInfinity()`: flag set and value negative. -/
def ExtendedNumber.isNegativeInfinity (a : ExtendedNumber) : Bool :=
  a.infinity_flag && decide (a.value < 0)

/-- `isInfinity()`. -/
def ExtendedNumber.isInfinity (a : ExtendedNumber) : Bool :=
  a.infinity_flag

/-- `explicit operator T()`: throws `std::domain_error` on infinity,
modelled by `none`. -/
def ExtendedNumber.toInt (a : ExtendedNumber) : Option Int :=
  if a.infinity_flag then none else some a.value

/-- `operator<`. -/
def ExtendedNumber.lt (a b : ExtendedNumber) : Bool :=
  if a.isPositiveInfinity || b.isNegativeInfinity then false
  else if a.isNegativeInfinity || b.isPositiveInfinity then true
  else decide (a.value < b.value)

/-- `operator==`. -/
def ExtendedNumber.beq (a b : ExtendedNumber) : Bool :=
  if a.infinity_flag && b.infinity_flag then
    a.isPositiveInfinity == b.isPositiveInfinity
  else if !a.infinity_flag && !b.infinity_flag then
    a.value == b.value
  else false

/-- `operator<=`, derived as `*this == rhs || *this < rhs`. -/
def ExtendedNumber.le (a b : ExtendedNumber) : Bool :=
  a.beq b || a.lt b

/-- `operator>`, derived as `!(*this <= rhs)`. -/
def ExtendedNumber.gt (a b : ExtendedNumber) : Bool :=
  !(a.le b)

/-- `operator>=`, derived as `!(*this < rhs)`. -/
def ExtendedNumber.ge (a b : ExtendedNumber) : Bool :=
  !(a.lt b)

/-- Unary `operator-`: negates the stored value, keeps the flag. -/
def ExtendedNumber.neg (a : ExtendedNumber) : ExtendedNumber :=
  { a with value := -a.value }

/-- `operator+=` (hence `operator+`): `none` models the
`std::domain_error` thrown on adding opposite infinities. -/
def ExtendedNumber.add (a b : ExtendedNumber) : Option ExtendedNumber :=
  if !a.infinity_flag && !b.infinity_flag then
    some { a with value := a.value + b.value }
  else if (a.isPositiveInfinity && !b.isNegativeInfinity)
      || (a.isNegativeInfinity && !b.isPositiveInfinity) then
    some a
  else if (b.isPositiveInfinity && !a.isNegativeInfinity)
      || (b.isNegativeInfinity && !a.isPositiveInfinity) then
    some b
  else none

/-- `operator-=` (hence `operator-`): `none` models the
`std::domain_error` thrown on subtracting same-sign infinities. -/
def ExtendedNumber.sub (a b : ExtendedNumber) : Option ExtendedNumber :=
  if !a.infinity_flag && !b.infinity_flag then
    some { a with value := a.value - b.value }
  else if (a.isPositiveInfinity && !b.isPositiveInfinity)
      || (a.isNegativeInfinity && !b.isNegativeInfinity) then
    some a
  else if (b.isPositiveInfinity && !a.isPositiveInfinity)
      || (b.isNegativeInfinity && !a.isNegativeInfinity) then
    some b.neg
  else none

/-- The sign factor `static_cast<T>(std::copysign(1, v))` used by the C++
multiplication and division on a value known to be non-zero. -/
def ExtendedNumber.sgn (v : Int) : Int :=
  if v < 0 then -1 else 1

/-- `operator*=` (hence `operator*`): `none` models the
`std::domain_error` thrown on `0 · ±∞` and `±∞ · 0`. -/
def ExtendedNumber.mul (a b : ExtendedNumber) : Option ExtendedNumber :=
  if !a.infinity_flag && !b.infinity_flag then
    some { a with value := a.value * b.value }
  else if !a.infinity_flag && decide (a.value ≠ 0) then
    some ⟨b.value * ExtendedNumber.sgn a.value, true⟩
  else if !b.infinity_flag && decide (b.value ≠ 0) then
    some ⟨a.value * ExtendedNumber.sgn b.value, true⟩
  else if a.infinity_flag && b.infinity_flag then
    some { a with value := a.value * b.value }
  else none

/-- `operator/=` (hence `operator/`): `none` models the
`std::domain_error` thrown on division by finite zero and on `∞ / ∞`.
Finite division is C++ truncated integer division (`Int.div`). -/
def ExtendedNumber.div (a b : ExtendedNumber) : Option ExtendedNumber :=
  if !a.infinity_flag && !b.infinity_flag && decide (b.value ≠ 0) then
    some { a with value := Int.tdiv a.value b.value }
  else if !a.infinity_flag && b.infinity_flag then
    some { a with value := 0 }
  else if !b.infinity_flag && decide (b.value ≠ 0) then
    some ⟨a.value * ExtendedNumber.sgn b.value, true⟩
  else none

/-- C7: extended-cost arithmetic on `ExtendedNumber<int>` satisfies:
`+∞ + (−5) = +∞`; `+∞ + (−∞)` raises DomainError; `0 · +∞` raises
DomainError; converting `+∞` to the underlying integer type raises
DomainError; and `+∞ > 10^9` is true. -/
theorem extended_number_special_cases :
    ExtendedNumber.add ExtendedNumber.positiveInfinity (ExtendedNumber.ofInt (-5))
      = some ExtendedNumber.positiveInfinity
    ∧ ExtendedNumber.add ExtendedNumber.positiveInfinity ExtendedNumber.negativeInfinity
      = none
    ∧ ExtendedNumber.mul (ExtendedNumber.ofInt 0) ExtendedNumber.positiveInfinity
      = none
    ∧ ExtendedNumber.toInt ExtendedNumber.positiveInfinity = none
    ∧ ExtendedNumber.gt ExtendedNumber.positiveInfinity (ExtendedNumber.ofInt (10 ^ 9))
      = true := by
  refine ⟨by decide, by decide, by decide, by decide, by decide⟩

/-- C8 counterexample: at `a = b = +∞`, `a + b` is defined (it is `+∞`)
but `(a + b) − b = +∞ − +∞` raises DomainError instead of returning `a`,
so the claim as stated fails. -/
theorem extended_number_add_sub_counterexample :
    ExtendedNumber.add ExtendedNumber.positiveInfinity ExtendedNumber.positiveInfinity
      = some ExtendedNumber.positiveInfinity
    ∧ ExtendedNumber.sub ExtendedNumber.positiveInfinity ExtendedNumber.positiveInfinity
      = none := by
  exact ⟨by decide, by decide⟩

/-- C8 (amended): whenever both `a + b` and `(a + b) − b` are defined,
`(a + b) − b = a`; moreover `0 · a = 0` for every finite `a`, and
`a / a = 1` for every finite non-zero `a`. -/
theorem extended_number_algebra :
    (∀ a b s d : ExtendedNumber,
      ExtendedNumber.add a b = some s → ExtendedNumber.sub s b = some d → d = a)
    ∧ (∀ a : ExtendedNumber, a.infinity_flag = false →
      ExtendedNumber.mul (ExtendedNumber.ofInt 0) a = some (ExtendedNumber.ofInt 0))
    ∧ (∀ a : ExtendedNumber, a.infinity_flag = false → a.value ≠ 0 →
      ExtendedNumber.div a a = some (ExtendedNumber.ofInt 1)) := by
  refine ⟨?_, ?_, ?_⟩
  · rintro ⟨av, af⟩ ⟨bv, bf⟩ s d hab hsb
    cases af <;> cases bf <;>
      simp only [ExtendedNumber.add, ExtendedNumber.isPositiveInfinity,
        ExtendedNumber.isNegativeInfinity, Bool.not_true, Bool.not_false,
        Bool.and_true, Bool.and_false, Bool.true_and, Bool.false_and,
        Bool.or_false, Bool.false_or, Bool.and_self] at hab <;>
      split_ifs at hab <;>
      (try cases hab) <;>
      simp only [ExtendedNumber.sub, ExtendedNumber.neg,
        ExtendedNumber.isPositiveInfinity, ExtendedNumber.isNegativeInfinity,
        Bool.not_true, Bool.not_false, Bool.and_true, Bool.and_false,
        Bool.true_and, Bool.false_and, Bool.or_false, Bool.false_or,
        Bool.and_self] at hsb <;>
      split_ifs at hsb <;>
      (try cases hsb) <;>
      simp_all <;> omega
  · rintro ⟨av, af⟩ h
    cases h
    simp [ExtendedNumber.mul, ExtendedNumber.ofInt]
  · rintro ⟨av, af⟩ h hv
    cases h
    simp [ExtendedNumber.div, ExtendedNumber.ofInt, hv, Int.tdiv_self hv]

/-- Witness for `extended_number_algebra` at concrete inputs
`a = +∞, b = 5` (first part), `a = 7` (second part), `a = 5` (third
part). -/
theorem extended_number_algebra_witness :
    ExtendedNumber.positiveInfinity = ExtendedNumber.positiveInfinity
    ∧ ExtendedNumber.mul (ExtendedNumber.ofInt 0) (ExtendedNumber.ofInt 7)
      = some (ExtendedNumber.ofInt 0)
    ∧ ExtendedNumber.div (ExtendedNumber.ofInt 5) (ExtendedNumber.ofInt 5)
      = some (ExtendedNumber.ofInt 1) :=
  ⟨extended_number_algebra.1 ExtendedNumber.positiveInfinity (ExtendedNumber.ofInt 5)
      ExtendedNumber.positiveInfinity ExtendedNumber.positiveInfinity
      (by decide) (by decide),
    extended_number_algebra.2.1 (ExtendedNumber.ofInt 7) rfl,
    extended_number_algebra.2.2 (ExtendedNumber.ofInt 5) rfl (by decide)⟩

/-- `Synteny::generateSubsequences()`: all ordered subsequences; for each
subsequence of the tail, emit it and then the same with the head
prepended. -/
def Synteny.generateSubsequences : Synteny → List Synteny
  | [] => [[]]
  | g :: rest =>
    (Synteny.generateSubsequences rest).bind (fun s => [s, g :: s])

/-- The `while` loop of `Synteny::reconcile`.  State: `base`/`target` are
the suffixes after `it_base`/`it_target`, `pos` the index of `it_base` in
the source, `start` the index of `it_start`, `coincides` the flag, `segs`
the accumulated `lost_segments`.  Returns the state at loop exit:
`(lost_segments, remaining base, remaining target, final position)`. -/
def reconcileLoop (substring : Bool) (max : ExtendedNumber) :
    List Gene → List Gene → Nat → Nat → Bool → List Segment →
    (List Segment × List Gene × List Gene × Nat)
  | base, target, pos, start, coincides, segs =>
    if (ExtendedNumber.ofInt segs.length).lt max then
      match base, target with
      | b :: bs, t :: ts =>
        if b ≠ t then
          if coincides then
            reconcileLoop substring max bs (t :: ts) (pos + 1) pos false segs
          else
            reconcileLoop substring max bs (t :: ts) (pos + 1) start false segs
        else
          if coincides then
            reconcileLoop substring max bs ts (pos + 1) start true segs
          else
            -- Closing a lost segment does not advance the iterators: the
            -- next loop iteration re-tests the bound and then, since
            -- `*it_base == *it_target` and `coincides` now holds, advances
            -- both iterators.  That following iteration is merged here so
            -- that the recursion is structural.
            let segs' :=
              if !substring || decide (start ≠ 0) then segs ++ [(start, pos)]
              else segs
            if (ExtendedNumber.ofInt segs'.length).lt max then
              reconcileLoop substring max bs ts (pos + 1) start true segs'
            else (segs', b :: bs, t :: ts, pos)
      | base, target => (segs, base, target, pos)
    else (segs, base, target, pos)
termination_by structural base _ _ _ _ _ => base

deriving instance DecidableEq for Except

/-- `Synteny::reconcile(target, substring, max)`: `.error ()` models the
`std::invalid_argument` thrown when the target is found not to be a
subsequence. -/
def Synteny.reconcile (source target : Synteny) (substring : Bool)
    (max : ExtendedNumber) : Except Unit (List Segment) :=
  match reconcileLoop substring max source target 0 source.length true [] with
  | (segs, base, tgt, pos) =>
    if base = [] ∧ tgt ≠ [] then .error ()
    else if base ≠ [] ∧ tgt = [] then
      if !substring then .ok (segs ++ [(pos, source.length)]) else .ok segs
    else .ok segs

/-- `Synteny::distanceTo(target, substring)`: the number of segments
reported by an unbounded reconciliation. -/
def Synteny.distanceTo (source target : Synteny) (substring : Bool) :
    Except Unit Nat :=
  (Synteny.reconcile source target substring
    ExtendedNumber.positiveInfinity).map List.length

/-- The lock-step walk described by the specification: one mask entry per
`source` position, `true` where the walk matches the next `target` gene
and `false` on a mismatch (the source position is skipped). -/
def lockstepMask : List Gene → List Gene → List Bool
  | [], _ => []
  | _ :: bs, [] => false :: lockstepMask bs []
  | b :: bs, t :: ts =>
    if b = t then true :: lockstepMask bs ts
    else false :: lockstepMask bs (t :: ts)

/-- Maximal runs of `false` entries of a mask, as half-open index
segments; `pending` carries the start of the currently open run. -/
def falseRuns : List Bool → Nat → Option Nat → List Segment
  | [], _, none => []
  | [], i, some s => [(s, i)]
  | m :: ms, i, none =>
    if m then falseRuns ms (i + 1) none else falseRuns ms (i + 1) (some i)
  | m :: ms, i, some s =>
    if m then (s, i) :: falseRuns ms (i + 1) none
    else falseRuns ms (i + 1) (some s)

/-- The maximal mismatching runs of the lock-step walk of `target` along
`source`. -/
def mismatchRuns (source target : List Gene) : List Segment :=
  falseRuns (lockstepMask source target) 0 none

lemma ext_lt_posInf (n : Int) :
    (ExtendedNumber.ofInt n).lt ExtendedNumber.positiveInfinity = true := by
  simp [ExtendedNumber.lt, ExtendedNumber.ofInt, ExtendedNumber.positiveInfinity,
    ExtendedNumber.isPositiveInfinity, ExtendedNumber.isNegativeInfinity]

lemma sublist_tail_of_ne_head {t b : Gene} {ts bs : List Gene}
    (h : (t :: ts).Sublist (b :: bs)) (hne : b ≠ t) : (t :: ts).Sublist bs := by
  cases h with
  | cons _ h => exact h
  | cons₂ => exact absurd rfl hne

lemma falseRuns_mask_nil_some (bs : List Gene) : ∀ (i s : Nat), bs ≠ [] →
    falseRuns (lockstepMask bs []) i (some s) = [(s, i + bs.length)] := by
  induction bs with
  | nil => intro i s h; exact absurd rfl h
  | cons b bs ih =>
    intro i s _
    cases bs with
    | nil => simp [lockstepMask, falseRuns]
    | cons x xs =>
      have h2 := ih (i + 1) s (by simp)
      have step : falseRuns (lockstepMask (b :: x :: xs) []) i (some s)
          = falseRuns (lockstepMask (x :: xs) []) (i + 1) (some s) := rfl
      rw [step, h2]
      simp
      omega

lemma falseRuns_mask_nil_none (bs : List Gene) (i : Nat) (h : bs ≠ []) :
    falseRuns (lockstepMask bs []) i none = [(i, i + bs.length)] := by
  cases bs with
  | nil => exact absurd rfl h
  | cons b bs =>
    cases bs with
    | nil => simp [lockstepMask, falseRuns]
    | cons x xs =>
      have h2 := falseRuns_mask_nil_some (x :: xs) (i + 1) i (by simp)
      have step : falseRuns (lockstepMask (b :: x :: xs) []) i none
          = falseRuns (lockstepMask (x :: xs) []) (i + 1) (some i) := rfl
      rw [step, h2]
      simp
      omega

lemma sublist_tail_tail {t b : Gene} {ts bs : List Gene}
    (h : (t :: ts).Sublist (b :: bs)) : ts.Sublist bs := by
  cases h with
  | cons _ h => exact (List.sublist_cons_self t ts).trans h
  | cons₂ _ h => exact h

lemma reconcileLoop_exhausts (substring : Bool) (base : List Gene) :
    ∀ (target : List Gene) (pos start : Nat) (c : Bool) (segs : List Segment),
      (reconcileLoop substring ExtendedNumber.positiveInfinity
          base target pos start c segs).2.1 = []
      ∨ (reconcileLoop substring ExtendedNumber.positiveInfinity
          base target pos start c segs).2.2.1 = [] := by
  induction base with
  | nil =>
    intro target pos start c segs
    simp [reconcileLoop, ext_lt_posInf]
  | cons b bs ih =>
    intro target pos start c segs
    cases target with
    | nil => simp [reconcileLoop, ext_lt_posInf]
    | cons t ts =>
      by_cases hbt : b = t
      · cases c with
        | true =>
          simpa [reconcileLoop, ext_lt_posInf, hbt] using
            ih ts (pos + 1) start true segs
        | false =>
          simpa [reconcileLoop, ext_lt_posInf, hbt] using
            ih ts (pos + 1) start true
              (if !substring || decide (start ≠ 0) then segs ++ [(start, pos)]
               else segs)
      · cases c with
        | true =>
          simpa [reconcileLoop, ext_lt_posInf, hbt] using
            ih (t :: ts) (pos + 1) pos false segs
        | false =>
          simpa [reconcileLoop, ext_lt_posInf, hbt] using
            ih (t :: ts) (pos + 1) start false segs

lemma reconcileLoop_sound (substring : Bool) (base : List Gene) :
    ∀ (target : List Gene) (pos start : Nat) (c : Bool) (segs : List Segment),
      (reconcileLoop substring ExtendedNumber.positiveInfinity
          base target pos start c segs).2.2.1 = [] →
      target.Sublist base := by
  induction base with
  | nil =>
    intro target pos start c segs h
    simp only [reconcileLoop, ext_lt_posInf, if_true] at h
    cases target with
    | nil => exact List.Sublist.refl _
    | cons t ts => simp at h
  | cons b bs ih =>
    intro target pos start c segs h
    cases target with
    | nil => exact List.nil_sublist _
    | cons t ts =>
      by_cases hbt : b = t
      · subst hbt
        cases c with
        | true =>
          have h' : (reconcileLoop substring ExtendedNumber.positiveInfinity
              bs ts (pos + 1) start true segs).2.2.1 = [] := by
            simpa [reconcileLoop, ext_lt_posInf] using h
          exact (ih ts (pos + 1) start true segs h').cons₂ b
        | false =>
          have h' : (reconcileLoop substring ExtendedNumber.positiveInfinity
              bs ts (pos + 1) start true
              (if !substring || decide (start ≠ 0) then segs ++ [(start, pos)]
               else segs)).2.2.1 = [] := by
            simpa [reconcileLoop, ext_lt_posInf] using h
          exact (ih ts (pos + 1) start true _ h').cons₂ b
      · cases c with
        | true =>
          have h' : (reconcileLoop substring ExtendedNumber.positiveInfinity
              bs (t :: ts) (pos + 1) pos false segs).2.2.1 = [] := by
            simpa [reconcileLoop, ext_lt_posInf, hbt] using h
          exact (ih (t :: ts) (pos + 1) pos false segs h').cons b
        | false =>
          have h' : (reconcileLoop substring ExtendedNumber.positiveInfinity
              bs (t :: ts) (pos + 1) start false segs).2.2.1 = [] := by
            simpa [reconcileLoop, ext_lt_posInf, hbt] using h
          exact (ih (t :: ts) (pos + 1) start false segs h').cons b

lemma reconcileLoop_total_spec (base : List Gene) :
    ∀ (target : List Gene) (pos start : Nat) (c : Bool) (segs : List Segment)
      (pending : Option Nat),
      target.Sublist base →
      (c = true → pending = none) →
      (c = false → pending = some start ∧ target ≠ []) →
      ∀ segs' base' target' pos',
        reconcileLoop false ExtendedNumber.positiveInfinity
          base target pos start c segs = (segs', base', target', pos') →
        target' = []
        ∧ (base' = [] →
            segs' = segs ++ falseRuns (lockstepMask base target) pos pending)
        ∧ (base' ≠ [] →
            segs' ++ [(pos', pos + base.length)]
              = segs ++ falseRuns (lockstepMask base target) pos pending) := by
  induction base with
  | nil =>
    intro target pos start c segs pending hsub hct hcf segs' base' target' pos' hR
    have htn : target = [] := List.sublist_nil.mp hsub
    subst htn
    simp only [reconcileLoop, ext_lt_posInf, if_true, Prod.mk.injEq] at hR
    obtain ⟨rfl, rfl, rfl, rfl⟩ := hR
    refine ⟨rfl, fun _ => ?_, fun h => absurd rfl h⟩
    cases c with
    | true =>
      have hp := hct rfl
      subst hp
      simp [lockstepMask, falseRuns]
    | false => exact absurd rfl (hcf rfl).2
  | cons b bs ih =>
    intro target pos start c segs pending hsub hct hcf segs' base' target' pos' hR
    cases target with
    | nil =>
      simp only [reconcileLoop, ext_lt_posInf, if_true, Prod.mk.injEq] at hR
      obtain ⟨rfl, rfl, rfl, rfl⟩ := hR
      refine ⟨rfl, fun h => absurd h (List.cons_ne_nil b bs), fun _ => ?_⟩
      cases c with
      | true =>
        have hp := hct rfl
        subst hp
        rw [falseRuns_mask_nil_none (b :: bs) pos (List.cons_ne_nil b bs)]
      | false => exact absurd rfl (hcf rfl).2
    | cons t ts =>
      by_cases hbt : b = t
      · subst hbt
        have hm : lockstepMask (b :: bs) (b :: ts) = true :: lockstepMask bs ts := by
          simp [lockstepMask]
        have harith : pos + (b :: bs).length = pos + 1 + bs.length := by
          simp [List.length_cons]; omega
        cases c with
        | true =>
          have hp := hct rfl
          subst hp
          have hred : reconcileLoop false ExtendedNumber.positiveInfinity
              (b :: bs) (b :: ts) pos start true segs
              = reconcileLoop false ExtendedNumber.positiveInfinity
                bs ts (pos + 1) start true segs := by
            simp [reconcileLoop, ext_lt_posInf]
          rw [hred] at hR
          obtain ⟨h1, h2, h3⟩ := ih ts (pos + 1) start true segs none
            (sublist_tail_tail hsub) (fun _ => rfl) (by simp)
            segs' base' target' pos' hR
          refine ⟨h1, fun hb => ?_, fun hb => ?_⟩
          · rw [h2 hb, hm]
            rfl
          · rw [harith, hm]
            exact h3 hb
        | false =>
          obtain ⟨hp, -⟩ := hcf rfl
          subst hp
          have hred : reconcileLoop false ExtendedNumber.positiveInfinity
              (b :: bs) (b :: ts) pos start false segs
              = reconcileLoop false ExtendedNumber.positiveInfinity
                bs ts (pos + 1) start true (segs ++ [(start, pos)]) := by
            simp [reconcileLoop, ext_lt_posInf]
          rw [hred] at hR
          obtain ⟨h1, h2, h3⟩ := ih ts (pos + 1) start true (segs ++ [(start, pos)])
            none (sublist_tail_tail hsub) (fun _ => rfl) (by simp)
            segs' base' target' pos' hR
          refine ⟨h1, fun hb => ?_, fun hb => ?_⟩
          · rw [h2 hb, hm]
            simp [falseRuns]
          · rw [harith, hm]
            have h3' := h3 hb
            rw [h3']
            simp [falseRuns]
      · have hm : lockstepMask (b :: bs) (t :: ts)
            = false :: lockstepMask bs (t :: ts) := by
          simp [lockstepMask, hbt]
        have harith : pos + (b :: bs).length = pos + 1 + bs.length := by
          simp [List.length_cons]; omega
        cases c with
        | true =>
          have hp := hct rfl
          subst hp
          have hred : reconcileLoop false ExtendedNumber.positiveInfinity
              (b :: bs) (t :: ts) pos start true segs
              = reconcileLoop false ExtendedNumber.positiveInfinity
                bs (t :: ts) (pos + 1) pos false segs := by
            simp [reconcileLoop, ext_lt_posInf, hbt]
          rw [hred] at hR
          obtain ⟨h1, h2, h3⟩ := ih (t :: ts) (pos + 1) pos false segs (some pos)
            (sublist_tail_of_ne_head hsub hbt) (by simp)
            (fun _ => ⟨rfl, List.cons_ne_nil t ts⟩) segs' base' target' pos' hR
          refine ⟨h1, fun hb => ?_, fun hb => ?_⟩
          · rw [h2 hb, hm]
            rfl
          · rw [harith, hm]
            exact h3 hb
        | false =>
          obtain ⟨hp, -⟩ := hcf rfl
          subst hp
          have hred : reconcileLoop false ExtendedNumber.positiveInfinity
              (b :: bs) (t :: ts) pos start false segs
              = reconcileLoop false ExtendedNumber.positiveInfinity
                bs (t :: ts) (pos + 1) start false segs := by
            simp [reconcileLoop, ext_lt_posInf, hbt]
          rw [hred] at hR
          obtain ⟨h1, h2, h3⟩ := ih (t :: ts) (pos + 1) start false segs (some start)
            (sublist_tail_of_ne_head hsub hbt) (by simp)
            (fun _ => ⟨rfl, List.cons_ne_nil t ts⟩) segs' base' target' pos' hR
          refine ⟨h1, fun hb => ?_, fun hb => ?_⟩
          · rw [h2 hb, hm]
            rfl
          · rw [harith, hm]
            exact h3 hb

lemma reconcileLoop_substring_spec (base : List Gene) :
    ∀ (target : List Gene) (pos start : Nat) (c : Bool) (segs : List Segment)
      (pending : Option Nat),
      target.Sublist base →
      (c = true → pending = none) →
      (c = false → pending = some start ∧ target ≠ []) →
      ∀ segs' base' target' pos',
        reconcileLoop true ExtendedNumber.positiveInfinity
          base target pos start c segs = (segs', base', target', pos') →
        target' = []
        ∧ segs' = segs ++ (falseRuns (lockstepMask base target) pos pending).filter
            (fun r => decide (r.1 ≠ 0) && decide (r.2 ≠ pos + base.length)) := by
  induction base with
  | nil =>
    intro target pos start c segs pending hsub hct hcf segs' base' target' pos' hR
    have htn : target = [] := List.sublist_nil.mp hsub
    subst htn
    simp only [reconcileLoop, ext_lt_posInf, if_true, Prod.mk.injEq] at hR
    obtain ⟨rfl, rfl, rfl, rfl⟩ := hR
    refine ⟨rfl, ?_⟩
    cases c with
    | true =>
      have hp := hct rfl
      subst hp
      simp [lockstepMask, falseRuns]
    | false => exact absurd rfl (hcf rfl).2
  | cons b bs ih =>
    intro target pos start c segs pending hsub hct hcf segs' base' target' pos' hR
    cases target with
    | nil =>
      simp only [reconcileLoop, ext_lt_posInf, if_true, Prod.mk.injEq] at hR
      obtain ⟨rfl, rfl, rfl, rfl⟩ := hR
      refine ⟨rfl, ?_⟩
      cases c with
      | true =>
        have hp := hct rfl
        subst hp
        rw [falseRuns_mask_nil_none (b :: bs) pos (List.cons_ne_nil b bs)]
        simp
      | false => exact absurd rfl (hcf rfl).2
    | cons t ts =>
      by_cases hbt : b = t
      · subst hbt
        have hm : lockstepMask (b :: bs) (b :: ts) = true :: lockstepMask bs ts := by
          simp [lockstepMask]
        have harith : pos + (b :: bs).length = pos + 1 + bs.length := by
          simp [List.length_cons]; omega
        cases c with
        | true =>
          have hp := hct rfl
          subst hp
          have hred : reconcileLoop true ExtendedNumber.positiveInfinity
              (b :: bs) (b :: ts) pos start true segs
              = reconcileLoop true ExtendedNumber.positiveInfinity
                bs ts (pos + 1) start true segs := by
            simp [reconcileLoop, ext_lt_posInf]
          rw [hred] at hR
          obtain ⟨h1, h2⟩ := ih ts (pos + 1) start true segs none
            (sublist_tail_tail hsub) (fun _ => rfl) (by simp)
            segs' base' target' pos' hR
          refine ⟨h1, ?_⟩
          rw [harith, hm, h2]
          rfl
        | false =>
          obtain ⟨hp, -⟩ := hcf rfl
          subst hp
          by_cases hs : start = 0
          · subst hs
            have hred : reconcileLoop true ExtendedNumber.positiveInfinity
                (b :: bs) (b :: ts) pos 0 false segs
                = reconcileLoop true ExtendedNumber.positiveInfinity
                  bs ts (pos + 1) 0 true segs := by
              simp [reconcileLoop, ext_lt_posInf]
            rw [hred] at hR
            obtain ⟨h1, h2⟩ := ih ts (pos + 1) 0 true segs none
              (sublist_tail_tail hsub) (fun _ => rfl) (by simp)
              segs' base' target' pos' hR
            refine ⟨h1, ?_⟩
            rw [harith, hm, h2]
            simp [falseRuns]
          · have hred : reconcileLoop true ExtendedNumber.positiveInfinity
                (b :: bs) (b :: ts) pos start false segs
                = reconcileLoop true ExtendedNumber.positiveInfinity
                  bs ts (pos + 1) start true (segs ++ [(start, pos)]) := by
              simp [reconcileLoop, ext_lt_posInf, hs]
            rw [hred] at hR
            obtain ⟨h1, h2⟩ := ih ts (pos + 1) start true (segs ++ [(start, pos)])
              none (sublist_tail_tail hsub) (fun _ => rfl) (by simp)
              segs' base' target' pos' hR
            refine ⟨h1, ?_⟩
            have hpos : pos ≠ pos + 1 + bs.length := by omega
            rw [harith, hm, h2]
            simp [falseRuns, hs, hpos]
      · have hm : lockstepMask (b :: bs) (t :: ts)
            = false :: lockstepMask bs (t :: ts) := by
          simp [lockstepMask, hbt]
        have harith : pos + (b :: bs).length = pos + 1 + bs.length := by
          simp [List.length_cons]; omega
        cases c with
        | true =>
          have hp := hct rfl
          subst hp
          have hred : reconcileLoop true ExtendedNumber.positiveInfinity
              (b :: bs) (t :: ts) pos start true segs
              = reconcileLoop true ExtendedNumber.positiveInfinity
                bs (t :: ts) (pos + 1) pos false segs := by
            simp [reconcileLoop, ext_lt_posInf, hbt]
          rw [hred] at hR
          obtain ⟨h1, h2⟩ := ih (t :: ts) (pos + 1) pos false segs (some pos)
            (sublist_tail_of_ne_head hsub hbt) (by simp)
            (fun _ => ⟨rfl, List.cons_ne_nil t ts⟩) segs' base' target' pos' hR
          refine ⟨h1, ?_⟩
          rw [harith, hm, h2]
          rfl
        | false =>
          obtain ⟨hp, -⟩ := hcf rfl
          subst hp
          have hred : reconcileLoop true ExtendedNumber.positiveInfinity
              (b :: bs) (t :: ts) pos start false segs
              = reconcileLoop true ExtendedNumber.positiveInfinity
                bs (t :: ts) (pos + 1) start false segs := by
            simp [reconcileLoop, ext_lt_posInf, hbt]
          rw [hred] at hR
          obtain ⟨h1, h2⟩ := ih (t :: ts) (pos + 1) start false segs (some start)
            (sublist_tail_of_ne_head hsub hbt) (by simp)
            (fun _ => ⟨rfl, List.cons_ne_nil t ts⟩) segs' base' target' pos' hR
          refine ⟨h1, ?_⟩
          rw [harith, hm, h2]
          rfl

lemma except_map_error_iff (x : Except Unit (List Segment)) :
    (x.map List.length = .error ()) ↔ x = .error () := by
  cases x <;> simp [Except.map]

lemma reconcile_total_eq_runs {source target : Synteny}
    (hsub : target.Sublist source) :
    Synteny.reconcile source target false ExtendedNumber.positiveInfinity
      = .ok (mismatchRuns source target) := by
  rcases hEq : reconcileLoop false ExtendedNumber.positiveInfinity
      source target 0 source.length true [] with ⟨segs', base', target', pos'⟩
  obtain ⟨h1, h2, h3⟩ := reconcileLoop_total_spec source target 0 source.length
    true [] none hsub (fun _ => rfl) (by simp) segs' base' target' pos' hEq
  subst h1
  unfold Synteny.reconcile
  rw [hEq]
  by_cases hb : base' = []
  · subst hb
    simp [Synteny.reconcile, mismatchRuns, h2 rfl]
  · have h3' := h3 hb
    simp only [Nat.zero_add, List.nil_append] at h3'
    simp [Synteny.reconcile, hb, mismatchRuns, ← h3']

lemma reconcile_substring_eq_runs {source target : Synteny}
    (hsub : target.Sublist source) :
    Synteny.reconcile source target true ExtendedNumber.positiveInfinity
      = .ok ((mismatchRuns source target).filter
          (fun r => decide (r.1 ≠ 0) && decide (r.2 ≠ source.length))) := by
  rcases hEq : reconcileLoop true ExtendedNumber.positiveInfinity
      source target 0 source.length true [] with ⟨segs', base', target', pos'⟩
  obtain ⟨h1, h2⟩ := reconcileLoop_substring_spec source target 0 source.length
    true [] none hsub (fun _ => rfl) (by simp) segs' base' target' pos' hEq
  subst h1
  simp only [Nat.zero_add, List.nil_append] at h2
  unfold Synteny.reconcile
  rw [hEq]
  by_cases hb : base' = [] <;> simp [hb, mismatchRuns, h2]

/-- C3 counterexample: with the finite loss bound `max = 1`, the walk
stops as soon as one lost segment is recorded, so
`reconcile(["a","b","c"], ["b","d"], total, 1)` returns normally (with
segment `[0, 1)`) even though `["b","d"]` is not a subsequence of
`["a","b","c"]`. -/
theorem reconcile_bounded_misses_not_a_subsequence :
    Synteny.reconcile ["a", "b", "c"] ["b", "d"] false (ExtendedNumber.ofInt 1)
      = .ok [(0, 1)]
    ∧ ¬ (["b", "d"] : List Gene).Sublist ["a", "b", "c"] :=
  ⟨by decide, by decide⟩

/-- C3 (amended): with the unbounded loss budget `+∞` — as used by the
loss-distance computation — the reconciliation and `distanceTo` fail with
`NotASubsequence` if and only if `target` is not a subsequence of
`source`; with a finite budget the walk can stop at the budget before
detecting that the target is not a subsequence. -/
theorem reconcile_error_iff_not_subsequence :
    ∀ (source target : Synteny) (substring : Bool),
      (Synteny.reconcile source target substring ExtendedNumber.positiveInfinity
          = .error () ↔ ¬ target.Sublist source)
      ∧ (Synteny.distanceTo source target substring = .error ()
          ↔ ¬ target.Sublist source) := by
  intro source target substring
  have key : Synteny.reconcile source target substring
      ExtendedNumber.positiveInfinity = .error () ↔ ¬ target.Sublist source := by
    constructor
    · intro h hsub
      cases substring with
      | false => rw [reconcile_total_eq_runs hsub] at h; cases h
      | true => rw [reconcile_substring_eq_runs hsub] at h; cases h
    · intro hnsub
      rcases hEq : reconcileLoop substring ExtendedNumber.positiveInfinity
          source target 0 source.length true [] with ⟨segs', base', target', pos'⟩
      have htne : target' ≠ [] := by
        intro htn
        exact hnsub (reconcileLoop_sound substring source target 0 source.length
          true [] (by rw [hEq, htn]))
      have hb : base' = [] := by
        rcases reconcileLoop_exhausts substring source target 0 source.length
            true [] with h | h
        · rwa [hEq] at h
        · rw [hEq] at h; exact absurd h htne
      unfold Synteny.reconcile
      rw [hEq]
      simp [hb, htne]
  exact ⟨key, by rw [Synteny.distanceTo, except_map_error_iff]; exact key⟩

/-- Witness for `reconcile_error_iff_not_subsequence`: nothing to
instantiate beyond concrete inputs; at `source = ["a","b"]`,
`target = ["c"]` both computations fail, and at `target = ["b"]` both
succeed. -/
theorem reconcile_error_iff_not_subsequence_witness :
    (Synteny.reconcile ["a", "b"] ["c"] false ExtendedNumber.positiveInfinity
        = .error () ↔ ¬ (["c"] : List Gene).Sublist ["a", "b"]) ∧
    (Synteny.distanceTo ["a", "b"] ["c"] false = .error ()
        ↔ ¬ (["c"] : List Gene).Sublist ["a", "b"]) :=
  reconcile_error_iff_not_subsequence ["a", "b"] ["c"] false

/-- C2: for a subsequence `target` of `source`, `distanceTo` counts one
lost segment per maximal mismatching run of the lock-step walk, except
that in substring mode runs abutting the start of `source` (closed runs
starting at index 0) and the trailing tail (runs reaching the end of
`source`) are not counted; in particular on source `1 … 9` and target
`1 4 5 6` total mode returns 2 and substring mode returns 1. -/
theorem distanceTo_counts_mismatch_runs :
    (∀ (source target : Synteny), target.Sublist source →
      Synteny.distanceTo source target false
          = .ok (mismatchRuns source target).length
      ∧ Synteny.distanceTo source target true
          = .ok ((mismatchRuns source target).filter
              (fun r => decide (r.1 ≠ 0) && decide (r.2 ≠ source.length))).length)
    ∧ Synteny.distanceTo ["1", "2", "3", "4", "5", "6", "7", "8", "9"]
        ["1", "4", "5", "6"] false = .ok 2
    ∧ Synteny.distanceTo ["1", "2", "3", "4", "5", "6", "7", "8", "9"]
        ["1", "4", "5", "6"] true = .ok 1 := by
  refine ⟨fun source target hsub => ?_, by decide, by decide⟩
  constructor
  · rw [Synteny.distanceTo, reconcile_total_eq_runs hsub]; rfl
  · rw [Synteny.distanceTo, reconcile_substring_eq_runs hsub]; rfl

/-- Witness for `distanceTo_counts_mismatch_runs` at the concrete
subsequence pair of scenario S2. -/
theorem distanceTo_counts_mismatch_runs_witness :
    Synteny.distanceTo ["1", "2", "3", "4", "5", "6", "7", "8", "9"]
        ["1", "4", "5", "6"] false
      = .ok (mismatchRuns ["1", "2", "3", "4", "5", "6", "7", "8", "9"]
          ["1", "4", "5", "6"]).length
    ∧ Synteny.distanceTo ["1", "2", "3", "4", "5", "6", "7", "8", "9"]
        ["1", "4", "5", "6"] true
      = .ok ((mismatchRuns ["1", "2", "3", "4", "5", "6", "7", "8", "9"]
          ["1", "4", "5", "6"]).filter
            (fun r => decide (r.1 ≠ 0)
              && decide (r.2 ≠ (["1", "2", "3", "4", "5", "6", "7", "8",
                  "9"] : Synteny).length))).length :=
  distanceTo_counts_mismatch_runs.1
    ["1", "2", "3", "4", "5", "6", "7", "8", "9"] ["1", "4", "5", "6"]
    (by decide)

/-- `Event::Type`. -/
inductive EventType
  | None
  | Duplication
  | Speciation
  | Loss
deriving DecidableEq, Repr

/-- `struct Event` (`src/model/Event.hpp`): type, synteny and segment,
with the C++ in-class initializers as defaults. -/
structure Event where
  type : EventType := EventType.None
  synteny : Synteny := []
  segment : Segment := NoSegment
deriving DecidableEq, Repr

/-- A `TaggedNode` of the NHX layer: node name, branch length and tag
map.  The branch length is a `double` in the source; no claim depends on
it, so it is carried as an integer.  The tag map (`std::map`) is carried
as an association list queried by `List.lookup`. -/
structure TaggedNode where
  name : String := ""
  length : Int := 0
  tags : List (String × String) := []
deriving DecidableEq, Repr

/-- Decimal digit characters emitted by `Nat.digitChar` for values below
ten. -/
def decimalDigits : List Char :=
  ['0', '1', '2', '3', '4', '5', '6', '7', '8', '9']

/-- Decimal printing of a number, as `operator<<` on an unsigned integer
does; `fuel` bounds the recursion depth and is always sufficient at the
call site in `natRepr`. -/
def natToDigitsAux : Nat → Nat → List Char
  | 0, _ => []
  | fuel + 1, n =>
    if n < 10 then [Nat.digitChar n]
    else natToDigitsAux fuel (n / 10) ++ [Nat.digitChar (n % 10)]

/-- Decimal representation of a number, as printed by the C++ stream
insertion used for segment boundaries. -/
def natRepr (n : Nat) : String :=
  String.mk (natToDigitsAux (n + 1) n)

/-- Numeral reading as `istream >> std::size_t` accumulates decimal
digits. -/
def readNat (cs : List Char) : Nat :=
  cs.foldl (fun acc c => acc * 10 + (c.toNat - '0'.toNat)) 0

/-- The segment-tag parsing of `Event::Event(const TaggedNode&)`:
`segment_tok >> start` skips whitespace and reads a decimal numeral
(leaving 0 on failure), `ignore(…, '-')` discards everything up to and
including the first hyphen, then `segment_tok >> end` reads the second
numeral the same way. -/
def parseSegmentTag (s : String) : Nat × Nat :=
  let cs := s.data
  let first := readNat ((cs.dropWhile Char.isWhitespace).takeWhile Char.isDigit)
  let rest := (cs.dropWhile (· ≠ '-')).drop 1
  let second := readNat ((rest.dropWhile Char.isWhitespace).takeWhile Char.isDigit)
  (first, second)

/-- The segment-tag formatting of `Event::operator TaggedNode()`:
`first << " - " << second`. -/
def writeSegmentTag (first second : Nat) : String :=
  natRepr first ++ " - " ++ natRepr second

/-- Accumulating scanner behind `splitTokens`: gather maximal runs of
non-whitespace characters (`acc` holds the current token reversed). -/
def splitTokensAux : List Char → List Char → List String
  | [], acc => if acc = [] then [] else [String.mk acc.reverse]
  | c :: cs, acc =>
    if c.isWhitespace then
      if acc = [] then splitTokensAux cs []
      else String.mk acc.reverse :: splitTokensAux cs []
    else splitTokensAux cs (c :: acc)
termination_by structural cs _ => cs

/-- The whitespace tokenization performed by the `synteny_tok >> gene`
loop: whitespace-separated tokens, empty ones discarded. -/
def splitTokens (s : String) : List String :=
  splitTokensAux s.data []

/-- `Event::Event(const TaggedNode&)` (`src/model/Event.cpp`): read the
event type from the `event` tag, the synteny from the node name, turn an
empty leaf into a full loss, and read the `segment` tag for segmental
losses and duplications. -/
def eventOfTagged (tagnode : TaggedNode) : Event :=
  let type0 : EventType :=
    match tagnode.tags.lookup "event" with
    | some "duplication" => EventType.Duplication
    | some "speciation" => EventType.Speciation
    | some "loss" => EventType.Loss
    | _ => EventType.None
  let synteny : Synteny :=
    if tagnode.name = "" then [] else splitTokens tagnode.name
  let type1 : EventType :=
    if type0 = EventType.None ∧ synteny = [] then EventType.Loss else type0
  let segment : Segment :=
    match tagnode.tags.lookup "segment" with
    | some s =>
      if (type1 = EventType.Loss ∧ synteny ≠ []) ∨ type1 = EventType.Duplication
      then parseSegmentTag s
      else NoSegment
    | none => NoSegment
  { type := type1, synteny := synteny, segment := segment }

/-- `Event::operator TaggedNode()` (`src/model/Event.cpp`): emit the
`event` tag, the space-separated synteny as the name, and the `segment`
tag for duplications and losses whose segment is not `NoSegment`. -/
def taggedOfEvent (event : Event) : TaggedNode :=
  let eventTags : List (String × String) :=
    match event.type with
    | EventType.None => []
    | EventType.Duplication => [("event", "duplication")]
    | EventType.Speciation => [("event", "speciation")]
    | EventType.Loss => [("event", "loss")]
  let name := String.intercalate " " event.synteny
  let segmentTags : List (String × String) :=
    if event.segment ≠ NoSegment
        ∧ (event.type = EventType.Loss ∨ event.type = EventType.Duplication)
    then [("segment", writeSegmentTag event.segment.1 event.segment.2)]
    else []
  { name := name, length := 0, tags := eventTags ++ segmentTags }

/-- `operator==(const Event&, const Event&)`: types must match, segments
are compared only for duplications and losses, syntenies must match. -/
def eventEq (lhs rhs : Event) : Bool :=
  if lhs.type ≠ rhs.type then false
  else if (lhs.type = EventType.Duplication ∨ lhs.type = EventType.Loss)
      ∧ lhs.segment ≠ rhs.segment then false
  else lhs.synteny == rhs.synteny

lemma digitChar_mem (d : Nat) (h : d < 10) : Nat.digitChar d ∈ decimalDigits := by
  interval_cases d <;> decide

lemma digitChar_val (d : Nat) (h : d < 10) : (Nat.digitChar d).toNat - 48 = d := by
  interval_cases d <;> decide

lemma decimalDigits_isDigit : ∀ c ∈ decimalDigits, c.isDigit = true := by decide

lemma decimalDigits_not_ws : ∀ c ∈ decimalDigits, c.isWhitespace = false := by
  decide

lemma decimalDigits_ne_hyphen : ∀ c ∈ decimalDigits, c ≠ '-' := by decide

lemma readNat_append_digit (ds : List Char) (c : Char) :
    readNat (ds ++ [c]) = readNat ds * 10 + (c.toNat - '0'.toNat) := by
  simp [readNat, List.foldl_append]

lemma readNat_singleton (c : Char) : readNat [c] = c.toNat - 48 := by
  simp [readNat]

lemma natToDigitsAux_spec : ∀ (fuel n : Nat), n < 10 ^ (fuel + 1) →
    natToDigitsAux (fuel + 1) n ≠ []
    ∧ (∀ c ∈ natToDigitsAux (fuel + 1) n, c ∈ decimalDigits)
    ∧ readNat (natToDigitsAux (fuel + 1) n) = n := by
  intro fuel
  induction fuel with
  | zero =>
    intro n hn
    have h10 : n < 10 := by simpa using hn
    have hstep : natToDigitsAux 1 n = [Nat.digitChar n] := by
      conv_lhs => rw [natToDigitsAux]
      rw [if_pos h10]
    rw [hstep]
    refine ⟨by simp, ?_, ?_⟩
    · intro c hc
      simp at hc
      subst hc
      exact digitChar_mem n h10
    · rw [readNat_singleton, digitChar_val n h10]
  | succ fuel ih =>
    intro n hn
    by_cases h10 : n < 10
    · have hstep : natToDigitsAux (fuel + 1 + 1) n = [Nat.digitChar n] := by
        conv_lhs => rw [natToDigitsAux]
        rw [if_pos h10]
      rw [hstep]
      refine ⟨by simp, ?_, ?_⟩
      · intro c hc
        simp at hc
        subst hc
        exact digitChar_mem n h10
      · rw [readNat_singleton, digitChar_val n h10]
    · have hdiv : n / 10 < 10 ^ (fuel + 1) := by
        rw [Nat.div_lt_iff_lt_mul (by omega)]
        calc n < 10 ^ (fuel + 1 + 1) := hn
        _ = 10 ^ (fuel + 1) * 10 := by rw [Nat.pow_succ]
      obtain ⟨hne, hmem, hval⟩ := ih (n / 10) hdiv
      have hstep : natToDigitsAux (fuel + 1 + 1) n
          = natToDigitsAux (fuel + 1) (n / 10) ++ [Nat.digitChar (n % 10)] := by
        conv_lhs => rw [natToDigitsAux]
        rw [if_neg h10]
      rw [hstep]
      refine ⟨by simp, ?_, ?_⟩
      · intro c hc
        rcases List.mem_append.mp hc with h | h
        · exact hmem c h
        · simp at h
          subst h
          exact digitChar_mem (n % 10) (Nat.mod_lt n (by omega))
      · rw [readNat_append_digit, hval,
          show '0'.toNat = 48 from rfl,
          digitChar_val (n % 10) (Nat.mod_lt n (by omega))]
        omega

lemma lt_ten_pow_succ (n : Nat) : n < 10 ^ (n + 1) := by
  induction n with
  | zero => simp
  | succ n ih =>
    have h1 : 10 ^ (n + 1) ≥ 1 := Nat.one_le_pow _ _ (by omega)
    calc n + 1 < 10 ^ (n + 1) + 1 := by omega
    _ ≤ 10 ^ (n + 1 + 1) := by
      rw [Nat.pow_succ]
      omega

lemma natReprDigits_spec (n : Nat) :
    (natRepr n).data ≠ []
    ∧ (∀ c ∈ (natRepr n).data, c ∈ decimalDigits)
    ∧ readNat (natRepr n).data = n := by
  simpa [natRepr] using natToDigitsAux_spec n n (lt_ten_pow_succ n)

lemma takeWhile_digits_stop (ds : List Char) (h : ∀ c ∈ ds, c ∈ decimalDigits)
    (tl : List Char) :
    (ds ++ ' ' :: tl).takeWhile Char.isDigit = ds := by
  induction ds with
  | nil => simp [List.takeWhile_cons]
  | cons c cs ih =>
    have hc := decimalDigits_isDigit c (h c (by simp))
    simp only [List.cons_append, List.takeWhile_cons, hc, if_true]
    rw [ih (fun x hx => h x (by simp [hx]))]

lemma takeWhile_digits_all (ds : List Char) (h : ∀ c ∈ ds, c ∈ decimalDigits) :
    ds.takeWhile Char.isDigit = ds := by
  induction ds with
  | nil => rfl
  | cons c cs ih =>
    have hc := decimalDigits_isDigit c (h c (by simp))
    simp only [List.takeWhile_cons, hc, if_true]
    rw [ih (fun x hx => h x (by simp [hx]))]

lemma dropWhile_to_hyphen (ds : List Char) (h : ∀ c ∈ ds, c ∈ decimalDigits)
    (tl : List Char) :
    (ds ++ ' ' :: '-' :: tl).dropWhile (· ≠ '-') = '-' :: tl := by
  induction ds with
  | nil => simp [List.dropWhile_cons]
  | cons c cs ih =>
    have hc := decimalDigits_ne_hyphen c (h c (by simp))
    simp only [List.cons_append, List.dropWhile_cons]
    rw [if_pos (by simpa using hc)]
    exact ih (fun x hx => h x (by simp [hx]))

lemma parse_write_segment_roundtrip (u v : Nat) :
    parseSegmentTag (writeSegmentTag u v) = (u, v) := by
  obtain ⟨hu_ne, hu_mem, hu_val⟩ := natReprDigits_spec u
  obtain ⟨hv_ne, hv_mem, hv_val⟩ := natReprDigits_spec v
  have hdata : (writeSegmentTag u v).data
      = (natRepr u).data ++ ' ' :: '-' :: ' ' :: (natRepr v).data := by
    simp [writeSegmentTag, String.data_append]
  rw [parseSegmentTag, hdata]
  have h1 : ((natRepr u).data ++ ' ' :: '-' :: ' ' :: (natRepr v).data).dropWhile
      Char.isWhitespace
      = (natRepr u).data ++ ' ' :: '-' :: ' ' :: (natRepr v).data := by
    cases hu : (natRepr u).data with
    | nil => exact absurd hu hu_ne
    | cons c cs =>
      have hc := decimalDigits_not_ws c (hu_mem c (by rw [hu]; simp))
      simp [List.dropWhile_cons, hc]
  rw [h1, takeWhile_digits_stop _ hu_mem _, hu_val,
    dropWhile_to_hyphen _ hu_mem _]
  simp only [List.drop_succ_cons, List.drop_zero]
  have h3 : (' ' :: (natRepr v).data).dropWhile Char.isWhitespace
      = (natRepr v).data := by
    rw [List.dropWhile_cons, if_pos (by decide)]
    cases hv : (natRepr v).data with
    | nil => exact absurd hv hv_ne
    | cons c cs =>
      have hc := decimalDigits_not_ws c (hv_mem c (by rw [hv]; simp))
      simp [List.dropWhile_cons, hc]
  rw [h3, takeWhile_digits_all _ hv_mem, hv_val]

/-- C9 counterexample: on a duplication node the tag `"2 - 5"` is stored
as the half-open segment `(2, 5)` — not the claimed `[2, 6)`; the stored
segment `(2, 5)` is written back as `"2 - 5"` — not the claimed
`"2 - 4"`; and on a three-gene duplication without a segment tag the
segment stays `NoSegment = (0, 0)` — not the claimed whole synteny
`[0, 3)`.  (The repository's own unit tests in `Event.test.cpp` require
exactly this behaviour.) -/
theorem segment_tag_translation_counterexample :
    (eventOfTagged ⟨"a b c", 0,
        [("event", "duplication"), ("segment", "2 - 5")]⟩).segment = (2, 5)
    ∧ ((2, 5) : Segment) ≠ (2, 6)
    ∧ (taggedOfEvent ⟨EventType.Duplication, ["a", "b", "c"], (2, 5)⟩).tags
        = [("event", "duplication"), ("segment", "2 - 5")]
    ∧ ("2 - 5" : String) ≠ "2 - 4"
    ∧ (eventOfTagged ⟨"a b c", 0, [("event", "duplication")]⟩).segment = (0, 0)
    ∧ ((0, 0) : Segment) ≠ (0, 3) := by
  refine ⟨by decide, by decide, by decide, by decide, by decide, by decide⟩

/-- C9 (amended): the two translations are symmetric and store the tag
numerals unchanged: a segment tag `"<u> - <v>"` on a duplication is read
as the half-open segment `(u, v)`; a stored segment `(first, second)` on
a duplication or loss (other than `NoSegment`) is written as the tag
`"first - second"`; and when a `Duplication` node has no segment tag its
segment stays `NoSegment = (0, 0)` rather than defaulting to the whole
synteny. -/
theorem segment_tag_translation :
    (∀ (u v : Nat) (name : String) (len : Int),
      (eventOfTagged ⟨name, len,
        [("event", "duplication"), ("segment", writeSegmentTag u v)]⟩).segment
        = (u, v))
    ∧ (∀ e : Event,
        e.type = EventType.Loss ∨ e.type = EventType.Duplication →
        e.segment ≠ NoSegment →
        (taggedOfEvent e).tags.lookup "segment"
          = some (writeSegmentTag e.segment.1 e.segment.2))
    ∧ (∀ (name : String) (len : Int),
        (eventOfTagged ⟨name, len, [("event", "duplication")]⟩).segment
          = NoSegment) := by
  refine ⟨?_, ?_, ?_⟩
  · intro u v name len
    have h : eventOfTagged ⟨name, len,
        [("event", "duplication"), ("segment", writeSegmentTag u v)]⟩
        = { type := EventType.Duplication,
            synteny := if name = "" then [] else splitTokens name,
            segment := parseSegmentTag (writeSegmentTag u v) } := rfl
    rw [h, parse_write_segment_roundtrip]
  · intro e htype hseg
    rcases htype with h | h <;>
      simp [taggedOfEvent, h, hseg, List.lookup]
  · intro name len
    simp [eventOfTagged, List.lookup]

/-- Witness for `segment_tag_translation` at `u = 2`, `v = 5`, a
concrete duplication event and a tag-less duplication node. -/
theorem segment_tag_translation_witness :
    (eventOfTagged ⟨"a b c", 0,
        [("event", "duplication"), ("segment", writeSegmentTag 2 5)]⟩).segment
      = (2, 5)
    ∧ (taggedOfEvent ⟨EventType.Duplication, ["a", "b", "c"], (2, 5)⟩).tags.lookup
        "segment" = some (writeSegmentTag 2 5)
    ∧ (eventOfTagged ⟨"a b c", 0, [("event", "duplication")]⟩).segment
      = NoSegment :=
  ⟨segment_tag_translation.1 2 5 "a b c" 0,
    segment_tag_translation.2.1 ⟨EventType.Duplication, ["a", "b", "c"], (2, 5)⟩
      (Or.inr rfl) (by decide),
    segment_tag_translation.2.2 "a b c" 0⟩

/-- C10: `operator==` on events compares the segment only for
duplications and losses: two events of kind `None` or `Speciation` with
equal kind and equal synteny are equal even when their segments
differ. -/
theorem event_eq_ignores_segment_outside_dup_loss :
    ∀ e₁ e₂ : Event, e₁.type = e₂.type →
      (e₁.type = EventType.None ∨ e₁.type = EventType.Speciation) →
      e₁.synteny = e₂.synteny → eventEq e₁ e₂ = true := by
  intro e₁ e₂ htype hkind hsyn
  rcases hkind with h | h <;>
    simp [eventEq, ← htype, h, hsyn]

/-- Witness for `event_eq_ignores_segment_outside_dup_loss`: two
speciation events with equal synteny but different segments compare
equal. -/
theorem event_eq_ignores_segment_outside_dup_loss_witness :
    eventEq ⟨EventType.Speciation, ["a", "b"], (0, 1)⟩
      ⟨EventType.Speciation, ["a", "b"], (1, 2)⟩ = true :=
  event_eq_ignores_segment_outside_dup_loss
    ⟨EventType.Speciation, ["a", "b"], (0, 1)⟩
    ⟨EventType.Speciation, ["a", "b"], (1, 2)⟩ rfl (Or.inr rfl) rfl

/-- A rooted ordered tree of `Event` payloads (`tree<Event>` from
`tree.hh`): a node and its list of children. -/
inductive ETree where
  | node (event : Event) (children : List ETree)

/-- The payload of the root node. -/
def ETree.event : ETree → Event
  | .node ev _ => ev

/-- The children of the root node. -/
def ETree.children : ETree → List ETree
  | .node _ cs => cs

mutual

/-- `erase_tree` (`src/algo/erase.cpp`).  `None` nodes are returned
unchanged; a childless `Loss` gets an empty synteny; a `Loss` with a
child is removed (`flatten` + `erase`) and erasure recurses into that
child with `is_root = false`; `Duplication`/`Speciation` nodes lose
their synteny unless they are the root, and erasure recurses into
child 0 and then into the node found at index 1 afterwards.  In the
event-tree data model a loss node carries at most one child, so the
replacement of child 0 is a single node and the node at index 1 is the
original second child; both recursions are therefore on the original
children.  (For out-of-model loss nodes with several children the C++
splices the extra children into the parent's child list, which a
node-to-node map cannot represent; the theorems below therefore assume
the data-model bound `lossAtMostUnary`.) -/
def erase_tree (is_root : Bool) : ETree → ETree
  | .node ev cs =>
    match ev.type with
    | EventType.None => .node ev cs
    | EventType.Loss =>
      match cs with
      | [] => .node { ev with synteny := [] } []
      | c :: _rest => erase_tree false c
    | EventType.Duplication | EventType.Speciation =>
      .node (if is_root then ev else { ev with synteny := [] })
        (erase_children cs)

/-- The two recursive calls of `erase_tree` at a binary node: erase
child 0, then the node at index 1. -/
def erase_children : List ETree → List ETree
  | [] => []
  | [c0] => [erase_tree false c0]
  | c0 :: c1 :: rest => erase_tree false c0 :: erase_tree false c1 :: rest

end

lemma erase_tree_none (b : Bool) (syn : Synteny) (seg : Segment)
    (cs : List ETree) :
    erase_tree b (.node ⟨EventType.None, syn, seg⟩ cs)
      = .node ⟨EventType.None, syn, seg⟩ cs := rfl

lemma erase_tree_loss_nil (b : Bool) (syn : Synteny) (seg : Segment) :
    erase_tree b (.node ⟨EventType.Loss, syn, seg⟩ [])
      = .node ⟨EventType.Loss, [], seg⟩ [] := rfl

lemma erase_tree_loss_cons (b : Bool) (syn : Synteny) (seg : Segment)
    (c : ETree) (rest : List ETree) :
    erase_tree b (.node ⟨EventType.Loss, syn, seg⟩ (c :: rest))
      = erase_tree false c := rfl

lemma erase_tree_dup (b : Bool) (syn : Synteny) (seg : Segment)
    (cs : List ETree) :
    erase_tree b (.node ⟨EventType.Duplication, syn, seg⟩ cs)
      = .node ⟨EventType.Duplication, (if b then syn else []), seg⟩
          (erase_children cs) := by
  cases b <;> rfl

lemma erase_tree_spec (b : Bool) (syn : Synteny) (seg : Segment)
    (cs : List ETree) :
    erase_tree b (.node ⟨EventType.Speciation, syn, seg⟩ cs)
      = .node ⟨EventType.Speciation, (if b then syn else []), seg⟩
          (erase_children cs) := by
  cases b <;> rfl


mutual

/-- The event-tree invariant that `Loss` nodes carry at most one child
(cascaded-loss chains), required of erasure inputs by the data model. -/
def lossAtMostUnary : ETree → Bool
  | .node ev cs =>
    (!(ev.type == EventType.Loss) || decide (cs.length ≤ 1))
      && lossAtMostUnaryList cs

def lossAtMostUnaryList : List ETree → Bool
  | [] => true
  | c :: cs => lossAtMostUnary c && lossAtMostUnaryList cs

end

lemma erase_tree_stable : ∀ (n : Nat) (t : ETree), sizeOf t ≤ n →
    (∀ b', erase_tree b' (erase_tree false t) = erase_tree false t)
    ∧ erase_tree true (erase_tree true t) = erase_tree true t := by
  intro n
  induction n with
  | zero =>
    intro t ht
    cases t with
    | node ev cs => simp at ht
  | succ n ih =>
    intro t ht
    cases t with
    | node ev cs =>
    have hsize : ∀ c ∈ cs, sizeOf c ≤ n := by
      intro c hc
      have h1 := List.sizeOf_lt_of_mem hc
      have h2 : sizeOf (ETree.node ev cs) = 1 + sizeOf ev + sizeOf cs := by simp
      have h3 : 0 < sizeOf ev := by cases ev; simp
      omega
    have hkids : erase_children (erase_children cs) = erase_children cs := by
      cases cs with
      | nil => rfl
      | cons c0 cs0 =>
        have hc0 := (ih c0 (hsize c0 (by simp))).1 false
        cases cs0 with
        | nil => simp [erase_children, hc0]
        | cons c1 rest =>
          have hc1 := (ih c1 (hsize c1 (by simp))).1 false
          simp [erase_children, hc0, hc1]
    obtain ⟨ty, syn, seg⟩ := ev
    cases ty with
    | None => exact ⟨fun b' => rfl, rfl⟩
    | Loss =>
      cases cs with
      | nil => exact ⟨fun b' => rfl, rfl⟩
      | cons c rest =>
        have hc := ih c (hsize c (by simp))
        exact ⟨fun b' => hc.1 b', hc.1 true⟩
    | Duplication =>
      constructor
      · intro b'
        rw [erase_tree_dup false, if_neg (by simp), erase_tree_dup b', hkids]
        cases b' <;> simp [erase_tree_dup]
      · rw [erase_tree_dup true, if_pos rfl, erase_tree_dup true, hkids,
          if_pos rfl]
    | Speciation =>
      constructor
      · intro b'
        rw [erase_tree_spec false, if_neg (by simp), erase_tree_spec b', hkids]
        cases b' <;> simp [erase_tree_spec]
      · rw [erase_tree_spec true, if_pos rfl, erase_tree_spec true, hkids,
          if_pos rfl]

/-- C6: erasure is idempotent on event trees (where, per the data model,
loss nodes carry at most one child): erasing an already-erased tree
changes neither structure nor labels. -/
theorem erase_tree_idempotent (t : ETree) (h : lossAtMostUnary t = true) :
    erase_tree true (erase_tree true t) = erase_tree true t :=
  (erase_tree_stable (sizeOf t) t (Nat.le_refl _)).2

/-- Witness for `erase_tree_idempotent` on a concrete tree with a
cascaded loss chain. -/
theorem erase_tree_idempotent_witness :
    lossAtMostUnary
        (.node ⟨EventType.Speciation, ["a", "b"], NoSegment⟩
          [.node ⟨EventType.Loss, ["a", "b"], NoSegment⟩
              [.node ⟨EventType.None, ["a"], NoSegment⟩ []],
            .node ⟨EventType.Duplication, ["a", "b"], NoSegment⟩
              [.node ⟨EventType.None, ["a"], NoSegment⟩ [],
                .node ⟨EventType.Loss, [], NoSegment⟩ []]]) = true
    ∧ erase_tree true (erase_tree true
        (.node ⟨EventType.Speciation, ["a", "b"], NoSegment⟩
          [.node ⟨EventType.Loss, ["a", "b"], NoSegment⟩
              [.node ⟨EventType.None, ["a"], NoSegment⟩ []],
            .node ⟨EventType.Duplication, ["a", "b"], NoSegment⟩
              [.node ⟨EventType.None, ["a"], NoSegment⟩ [],
                .node ⟨EventType.Loss, [], NoSegment⟩ []]]))
      = erase_tree true
        (.node ⟨EventType.Speciation, ["a", "b"], NoSegment⟩
          [.node ⟨EventType.Loss, ["a", "b"], NoSegment⟩
              [.node ⟨EventType.None, ["a"], NoSegment⟩ []],
            .node ⟨EventType.Duplication, ["a", "b"], NoSegment⟩
              [.node ⟨EventType.None, ["a"], NoSegment⟩ [],
                .node ⟨EventType.Loss, [], NoSegment⟩ []]]) :=
  ⟨by decide, erase_tree_idempotent _ (by decide)⟩

/-- Lift the `Option` of extended arithmetic into the `Except` monad of
the algorithm (a `none` is a thrown `std::domain_error`). -/
def liftOpt : Option α → Except Unit α
  | some a => .ok a
  | none => .error ()

/-- The per-candidate record `Candidate` of `super_reconciliation`
(`src/algo/super_reconciliation.cpp`): DP cost, optimal child synteny
assignations and partial-duplication flags (`partial_left` and
`partial_right` in the source, named `part_left`/`part_right` here). -/
structure Candidate where
  cost : ExtendedNumber := ⟨0, false⟩
  synteny_left : Synteny := []
  synteny_right : Synteny := []
  part_left : Bool := false
  part_right : Bool := false
deriving DecidableEq, Repr

/-- `CandidateMapping` (`std::map<Synteny, Candidate>`) with
`emplace`-once-per-key semantics: an association list where the first
binding of a key wins. -/
def assocFind : List (Synteny × Candidate) → Synteny → Option Candidate
  | [], _ => none
  | (k, v) :: rest, key => if k = key then some v else assocFind rest key

/-- The candidate maps computed for every node of the tree
(`candidates_per_node`), arranged along the tree structure instead of
being keyed by node address. -/
inductive CandTree where
  | node (cmap : List (Synteny × Candidate)) (children : List CandTree)

/-- The candidate map of the root node of a `CandTree`. -/
def CandTree.cmap : CandTree → List (Synteny × Candidate)
  | .node m _ => m

/-- The inner loop on `sub_possibilities` for one child: find the
sub-candidate minimizing total-distance-plus-cost and the one minimizing
partial-distance-plus-cost.  `lossChild` reflects `child->type ==
Event::Type::Loss`, for which both distances are taken as zero. -/
def computeBest (cand : Synteny) (subs : List Synteny) (lossChild : Bool)
    (cmap : List (Synteny × Candidate)) :
    Except Unit (ExtendedNumber × Synteny × ExtendedNumber × Synteny) :=
  subs.foldlM
    (fun best sub_candidate => do
      let (btc, bts, bpc, bps) := best
      let total_dist ← if lossChild then pure 0
        else Synteny.distanceTo cand sub_candidate false
      let part_dist ← if lossChild then pure 0
        else Synteny.distanceTo cand sub_candidate true
      let info ← liftOpt (assocFind cmap sub_candidate)
      let total_cost ← liftOpt
        (ExtendedNumber.add (ExtendedNumber.ofInt total_dist) info.cost)
      let (btc, bts) := if total_cost.lt btc then (total_cost, sub_candidate)
        else (btc, bts)
      let part_cost ← liftOpt
        (ExtendedNumber.add (ExtendedNumber.ofInt part_dist) info.cost)
      let (bpc, bps) := if part_cost.lt bpc then (part_cost, sub_candidate)
        else (bpc, bps)
      pure (btc, bts, bpc, bps))
    (ExtendedNumber.positiveInfinity, [], ExtendedNumber.positiveInfinity, [])

/-- The `switch` arm for `Event::Type::Duplication` in the DP of
`super_reconciliation`: pick the first of (full, partial-right,
partial-left) whose combined cost is less than or equal to the other
two; the final `some {}` corresponds to the C++ fall-through that leaves
the `Candidate` default-constructed (unreachable for ordered costs). -/
def duplicationInfo (btt btp bpt : ExtendedNumber)
    (total_left total_right part_left_synt part_right_synt : Synteny) :
    Option Candidate :=
  if btt.le btp && btt.le bpt then
    (ExtendedNumber.add (ExtendedNumber.ofInt 1) btt).map
      (fun c => { cost := c, synteny_left := total_left,
                  synteny_right := total_right })
  else if btp.le btt && btp.le bpt then
    (ExtendedNumber.add (ExtendedNumber.ofInt 1) btp).map
      (fun c => { cost := c, synteny_left := total_left,
                  synteny_right := part_right_synt, part_right := true })
  else if bpt.le btt && bpt.le btp then
    (ExtendedNumber.add (ExtendedNumber.ofInt 1) bpt).map
      (fun c => { cost := c, synteny_left := part_left_synt,
                  synteny_right := total_right, part_left := true })
  else some {}

/-- The bottom-up (postorder) DP of `super_reconciliation`: compute the
candidate map of every node.  A unary or more-than-binary internal node
leaves its candidate map empty, so `is_consistent` stays false and the
`std::invalid_argument` (modelled by `.error ()`) is thrown; the same
error is thrown when no candidate of a node has a finite cost. -/
def buildCand (possibilities : List Synteny) : ETree → Except Unit CandTree
  | .node ev cs =>
    match cs with
    | [] => do
      let cmap := possibilities.map (fun cand =>
        (cand, ({ cost := if cand = ev.synteny then ⟨0, false⟩
                    else ExtendedNumber.positiveInfinity } : Candidate)))
      if possibilities.any (fun cand => cand = ev.synteny) then
        pure (.node cmap [])
      else throw ()
    | [l, r] => do
      let cl ← buildCand possibilities l
      let cr ← buildCand possibilities r
      let entries ← possibilities.mapM (fun cand => do
        let subs := cand.generateSubsequences
        let (btl, stl, bpl, spl) ← computeBest cand subs
          (l.event.type = EventType.Loss) cl.cmap
        let (btr, str2, bpr, spr) ← computeBest cand subs
          (r.event.type = EventType.Loss) cr.cmap
        let btt ← liftOpt (ExtendedNumber.add btl btr)
        let btp ← liftOpt (ExtendedNumber.add btl bpr)
        let bpt ← liftOpt (ExtendedNumber.add bpl btr)
        match ev.type with
        | EventType.Speciation =>
          pure (cand,
            ({ cost := btt, synteny_left := stl, synteny_right := str2 } :
              Candidate))
        | EventType.Duplication => do
          let info ← liftOpt (duplicationInfo btt btp bpt stl str2 spl spr)
          pure (cand, info)
        | _ => throw ())
      if entries.any (fun e => !(e.2.cost.isInfinity)) then
        pure (.node entries [cl, cr])
      else throw ()
    | _ => throw ()

/-- Erasure of the segment `[first, second)` from a synteny, as
`synteny.erase(begin + first, begin + second)`. -/
def eraseSegment (syn : Synteny) (seg : Segment) : Synteny :=
  syn.take seg.1 ++ syn.drop seg.2

/-- `find_duplicated_segment`: start from the whole parent synteny and
shrink it by the losses found at the very start or end. -/
def find_duplicated_segment (synteny_parent synteny_child : Synteny) :
    Except Unit Segment := do
  let losses ← Synteny.reconcile synteny_parent synteny_child false
    ExtendedNumber.positiveInfinity
  let maxLen := synteny_parent.length
  pure (losses.foldl
    (fun (result : Segment) loss =>
      let result := if loss.1 = 0 then (loss.2, result.2) else result
      if loss.2 = maxLen then (result.1, loss.1) else result)
    (0, maxLen))

/-- The recursion of `resolve_losses` below its first call: `sp` is the
parent synteny with any pending loss already applied.  Returns the
events of the loss chain inserted between parent and child (top-down)
and whether the child is kept (`false` when a chain node's synteny
becomes empty, in which case `erase_children` drops the child).  `fuel`
bounds the recursion and is sufficient whenever it exceeds the length
of `sp`, since every inserted loss erases a non-empty segment. -/
def resolveChain (fuel : Nat) (sp childSyn : Synteny) (substring : Bool) :
    Except Unit (List Event × Bool) :=
  match fuel with
  | 0 => throw ()
  | fuel + 1 => do
    let losses ← Synteny.reconcile sp childSyn substring (ExtendedNumber.ofInt 1)
    match losses with
    | [] => pure ([], true)
    | seg :: _ =>
      let lossEv : Event := { type := EventType.Loss, synteny := sp, segment := seg }
      let sp2 := eraseSegment sp seg
      if sp2 = [] then pure ([lossEv], false)
      else do
        let (chain, keep) ← resolveChain fuel sp2 childSyn substring
        pure (lossEv :: chain, keep)

/-- Stack a loss chain above an optional bottom subtree (the wrapped
child, absent when the chain erased it). -/
def attachChain : List Event → Option ETree → Option ETree
  | [], bottom => bottom
  | ev :: rest, bottom =>
    some (.node ev
      (match attachChain rest bottom with
        | some t => [t]
        | none => []))

/-- Replace the synteny of the root event of a subtree
(`child->synteny = …`). -/
def ETree.setSynteny : ETree → Synteny → ETree
  | .node ev cs, s => .node { ev with synteny := s } cs

/-- Continuation of `traceback` at a binary node once the node event
(with any partial-duplication segment) is fixed: cut the subtree if the
synteny is empty, otherwise wrap both children in their loss chains.
The recursive descents into the two children are received as the
already-formed `Except` computations `recL`/`recR`; they are bound only
inside the branch where the child is kept, exactly as the C++ loop only
visits a child when it is kept. -/
def tracebackRest (recL recR : Except Unit ETree) (ev : Event)
    (info : Candidate) : Except Unit ETree :=
  if ev.synteny = [] then
    pure (.node { ev with type := EventType.Loss } [])
  else do
    let (chainL, keepL) ← resolveChain (ev.synteny.length + 1)
      ev.synteny info.synteny_left info.part_left
    let newL ← if keepL then do
        let tl ← recL
        pure (some tl)
      else pure none
    let leftTree ← liftOpt (attachChain chainL newL)
    let (chainR, keepR) ← resolveChain (ev.synteny.length + 1)
      ev.synteny info.synteny_right info.part_right
    let newR ← if keepR then do
        let tr ← recR
        pure (some tr)
      else pure none
    let rightTree ← liftOpt (attachChain chainR newR)
    pure (.node ev [leftTree, rightTree])

/-- The top-down propagation loop of `super_reconciliation`: at every
binary node, read the `Candidate` recorded for the node's current
synteny, set the duplication segment for partial duplications, assign
the children's syntenies and insert the required loss chains
(`resolve_losses`), then continue into the original children (the
inserted loss nodes are unary and the loop skips them).  When a node's
synteny is empty, `resolve_losses` erases its children and turns it
into a loss; past that point the C++ loop has no children left to
visit. -/
def traceback : CandTree → ETree → Except Unit ETree
  | .node cmap ccs, .node ev cs =>
    match cs, ccs with
    | [l, r], [cl, cr] => do
      let info ← liftOpt (assocFind cmap ev.synteny)
      let ev ← if info.part_left then do
          let seg ← find_duplicated_segment ev.synteny info.synteny_left
          pure { ev with segment := seg }
        else pure ev
      let ev ← if info.part_right then do
          let seg ← find_duplicated_segment ev.synteny info.synteny_right
          pure { ev with segment := seg }
        else pure ev
      tracebackRest (traceback cl (l.setSynteny info.synteny_left))
        (traceback cr (r.setSynteny info.synteny_right)) ev info
    | _, _ => pure (.node ev cs)

/-- `super_reconciliation` (`src/algo/super_reconciliation.cpp`, current
version): run the DP from the subsequences of the ancestral synteny
already affixed to the root, then propagate the optimal assignations
from the root down. -/
def super_reconciliation (t : ETree) : Except Unit ETree := do
  let ancestral_synteny := t.event.synteny
  let possibilities := ancestral_synteny.generateSubsequences
  let ct ← buildCand possibilities t
  traceback ct t

/-- The cost values reachable in the DP: finite numbers and `+∞`. -/
def ExtendedNumber.wfCost (a : ExtendedNumber) : Prop :=
  a.infinity_flag = false ∨ a = ExtendedNumber.positiveInfinity

/-- Semantics of a DP cost in the linearly ordered `WithTop ℤ`. -/
def gammaCost (a : ExtendedNumber) : WithTop Int :=
  if a.infinity_flag then ⊤ else (a.value : WithTop Int)

lemma le_iff_gammaCost {a b : ExtendedNumber}
    (ha : a.wfCost) (hb : b.wfCost) :
    (a.le b = true) ↔ gammaCost a ≤ gammaCost b := by
  obtain ⟨av, af⟩ := a
  obtain ⟨bv, bf⟩ := b
  rcases ha with ha | ha <;> rcases hb with hb | hb
  · simp only at ha hb
    subst ha; subst hb
    simp [ExtendedNumber.le, ExtendedNumber.beq, ExtendedNumber.lt,
      ExtendedNumber.isPositiveInfinity, ExtendedNumber.isNegativeInfinity,
      gammaCost, WithTop.coe_le_coe]
    omega
  · simp only at ha
    subst ha
    cases hb
    simp [ExtendedNumber.le, ExtendedNumber.beq, ExtendedNumber.lt,
      ExtendedNumber.isPositiveInfinity, ExtendedNumber.isNegativeInfinity,
      gammaCost, ExtendedNumber.positiveInfinity, le_top]
  · cases ha
    simp only at hb
    subst hb
    simp [ExtendedNumber.le, ExtendedNumber.beq, ExtendedNumber.lt,
      ExtendedNumber.isPositiveInfinity, ExtendedNumber.isNegativeInfinity,
      gammaCost, ExtendedNumber.positiveInfinity, top_le_iff]
  · cases ha
    cases hb
    simp [ExtendedNumber.le, ExtendedNumber.beq,
      ExtendedNumber.isPositiveInfinity, gammaCost,
      ExtendedNumber.positiveInfinity]

lemma add_one_wfCost {a : ExtendedNumber} (ha : a.wfCost) :
    ∃ c, ExtendedNumber.add (ExtendedNumber.ofInt 1) a = some c := by
  obtain ⟨av, af⟩ := a
  rcases ha with ha | ha
  · simp only at ha
    subst ha
    exact ⟨_, rfl⟩
  · cases ha
    exact ⟨_, rfl⟩

/-- C4: in the duplication arm of the DP, when two or three of the
scenario costs (full = `btt`, partial-right = `btp`, partial-left =
`bpt`) tie for the minimum, the recorded optimum is the first of the
sequence (full, partial-right, partial-left) attaining the minimum:
full duplication wins all its ties, and partial-right beats
partial-left. -/
theorem duplication_tie_break :
    ∀ (btt btp bpt : ExtendedNumber)
      (total_left total_right part_left_synt part_right_synt : Synteny),
      btt.wfCost → btp.wfCost → bpt.wfCost →
      ((gammaCost btt
            = min (gammaCost btt) (min (gammaCost btp) (gammaCost bpt))
          ∧ gammaCost btp
            = min (gammaCost btt) (min (gammaCost btp) (gammaCost bpt)))
        ∨ (gammaCost btt
            = min (gammaCost btt) (min (gammaCost btp) (gammaCost bpt))
          ∧ gammaCost bpt
            = min (gammaCost btt) (min (gammaCost btp) (gammaCost bpt)))
        ∨ (gammaCost btp
            = min (gammaCost btt) (min (gammaCost btp) (gammaCost bpt))
          ∧ gammaCost bpt
            = min (gammaCost btt) (min (gammaCost btp) (gammaCost bpt)))) →
      ∃ c, duplicationInfo btt btp bpt
          total_left total_right part_left_synt part_right_synt = some c
        ∧ (gammaCost btt
              = min (gammaCost btt) (min (gammaCost btp) (gammaCost bpt)) →
            c.part_left = false ∧ c.part_right = false
            ∧ c.synteny_left = total_left ∧ c.synteny_right = total_right)
        ∧ (gammaCost btt
              ≠ min (gammaCost btt) (min (gammaCost btp) (gammaCost bpt)) →
            gammaCost btp
              = min (gammaCost btt) (min (gammaCost btp) (gammaCost bpt)) →
            c.part_left = false ∧ c.part_right = true
            ∧ c.synteny_left = total_left ∧ c.synteny_right = part_right_synt)
        ∧ (gammaCost btt
              ≠ min (gammaCost btt) (min (gammaCost btp) (gammaCost bpt)) →
            gammaCost btp
              ≠ min (gammaCost btt) (min (gammaCost btp) (gammaCost bpt)) →
            c.part_left = true ∧ c.part_right = false
            ∧ c.synteny_left = part_left_synt ∧ c.synteny_right = total_right) := by
  intro btt btp bpt tl tr pls prs h1 h2 h3 _tie
  have i1 := le_iff_gammaCost h1 h2
  have i2 := le_iff_gammaCost h1 h3
  have i3 := le_iff_gammaCost h2 h1
  have i4 := le_iff_gammaCost h2 h3
  have i5 := le_iff_gammaCost h3 h1
  have i6 := le_iff_gammaCost h3 h2
  set a := gammaCost btt with ha
  set b := gammaCost btp with hb
  set c := gammaCost bpt with hc
  by_cases hA : a ≤ b ∧ a ≤ c
  · have hcond : (btt.le btp && btt.le bpt) = true := by
      rw [Bool.and_eq_true, i1, i2]
      exact ⟨hA.1, hA.2⟩
    obtain ⟨cc, hcc⟩ := add_one_wfCost h1
    have haeq : a = min a (min b c) :=
      le_antisymm (le_min le_rfl (le_min hA.1 hA.2)) (min_le_left _ _)
    refine ⟨Candidate.mk cc tl tr false false, ?_, ?_, ?_, ?_⟩
    · simp [duplicationInfo, hcond, hcc]
    · intro _
      exact ⟨rfl, rfl, rfl, rfl⟩
    · intro hne _
      exact absurd haeq hne
    · intro hne _
      exact absurd haeq hne
  · by_cases hB : b ≤ a ∧ b ≤ c
    · have hcond1 : (btt.le btp && btt.le bpt) = false := by
        cases hx : (btt.le btp && btt.le bpt) with
        | false => rfl
        | true =>
          rw [Bool.and_eq_true, i1, i2] at hx
          exact absurd hx hA
      have hcond2 : (btp.le btt && btp.le bpt) = true := by
        rw [Bool.and_eq_true, i3, i4]
        exact ⟨hB.1, hB.2⟩
      obtain ⟨cc, hcc⟩ := add_one_wfCost h2
      have hbm : b = min a (min b c) :=
        le_antisymm (le_min hB.1 (le_min le_rfl hB.2))
          (le_trans (min_le_right _ _) (min_le_left _ _))
      have ham : a ≠ min a (min b c) := by
        intro haeq
        refine hA ⟨?_, ?_⟩
        · exact haeq ▸ le_trans (min_le_right _ _) (min_le_left _ _)
        · exact haeq ▸ le_trans (min_le_right _ _) (min_le_right _ _)
      refine ⟨Candidate.mk cc tl prs false true, ?_, ?_, ?_, ?_⟩
      · simp [duplicationInfo, hcond1, hcond2, hcc]
      · intro haeq
        exact absurd haeq ham
      · intro _ _
        exact ⟨rfl, rfl, rfl, rfl⟩
      · intro _ hne
        exact absurd hbm hne
    · have h3le : c ≤ a ∧ c ≤ b := by
        rcases le_total a b with hab | hba
        · have hac : ¬ a ≤ c := fun h => hA ⟨hab, h⟩
          have hca : c ≤ a := (lt_of_not_le hac).le
          exact ⟨hca, le_trans hca hab⟩
        · have hbc : ¬ b ≤ c := fun h => hB ⟨hba, h⟩
          have hcb : c ≤ b := (lt_of_not_le hbc).le
          exact ⟨le_trans hcb hba, hcb⟩
      have hcond1 : (btt.le btp && btt.le bpt) = false := by
        cases hx : (btt.le btp && btt.le bpt) with
        | false => rfl
        | true =>
          rw [Bool.and_eq_true, i1, i2] at hx
          exact absurd hx hA
      have hcond2 : (btp.le btt && btp.le bpt) = false := by
        cases hx : (btp.le btt && btp.le bpt) with
        | false => rfl
        | true =>
          rw [Bool.and_eq_true, i3, i4] at hx
          exact absurd hx hB
      have hcond3 : (bpt.le btt && bpt.le btp) = true := by
        rw [Bool.and_eq_true, i5, i6]
        exact ⟨h3le.1, h3le.2⟩
      obtain ⟨cc, hcc⟩ := add_one_wfCost h3
      have ham : a ≠ min a (min b c) := by
        intro haeq
        refine hA ⟨?_, ?_⟩
        · exact haeq ▸ le_trans (min_le_right _ _) (min_le_left _ _)
        · exact haeq ▸ le_trans (min_le_right _ _) (min_le_right _ _)
      have hbm : b ≠ min a (min b c) := by
        intro hbeq
        refine hB ⟨?_, ?_⟩
        · exact hbeq ▸ min_le_left _ _
        · exact hbeq ▸ le_trans (min_le_right _ _) (min_le_right _ _)
      refine ⟨Candidate.mk cc pls tr true false, ?_, ?_, ?_, ?_⟩
      · simp [duplicationInfo, hcond1, hcond2, hcond3, hcc]
      · intro haeq
        exact absurd haeq ham
      · intro _ hbeq
        exact absurd hbeq hbm
      · intro _ _
        exact ⟨rfl, rfl, rfl, rfl⟩

/-- Witness for `duplication_tie_break` at the tie `full = partial-right
= 2`, `partial-left = 3`: the full scenario must be recorded. -/
theorem duplication_tie_break_witness :
    ∃ c, duplicationInfo (ExtendedNumber.ofInt 2) (ExtendedNumber.ofInt 2)
        (ExtendedNumber.ofInt 3) ["a"] ["b"] ["c"] ["d"] = some c
      ∧ (gammaCost (ExtendedNumber.ofInt 2)
            = min (gammaCost (ExtendedNumber.ofInt 2))
                (min (gammaCost (ExtendedNumber.ofInt 2))
                  (gammaCost (ExtendedNumber.ofInt 3))) →
          c.part_left = false ∧ c.part_right = false
          ∧ c.synteny_left = ["a"] ∧ c.synteny_right = ["b"])
      ∧ (gammaCost (ExtendedNumber.ofInt 2)
            ≠ min (gammaCost (ExtendedNumber.ofInt 2))
                (min (gammaCost (ExtendedNumber.ofInt 2))
                  (gammaCost (ExtendedNumber.ofInt 3))) →
          gammaCost (ExtendedNumber.ofInt 2)
            = min (gammaCost (ExtendedNumber.ofInt 2))
                (min (gammaCost (ExtendedNumber.ofInt 2))
                  (gammaCost (ExtendedNumber.ofInt 3))) →
          c.part_left = false ∧ c.part_right = true
          ∧ c.synteny_left = ["a"] ∧ c.synteny_right = ["d"])
      ∧ (gammaCost (ExtendedNumber.ofInt 2)
            ≠ min (gammaCost (ExtendedNumber.ofInt 2))
                (min (gammaCost (ExtendedNumber.ofInt 2))
                  (gammaCost (ExtendedNumber.ofInt 3))) →
          gammaCost (ExtendedNumber.ofInt 2)
            ≠ min (gammaCost (ExtendedNumber.ofInt 2))
                (min (gammaCost (ExtendedNumber.ofInt 2))
                  (gammaCost (ExtendedNumber.ofInt 3))) →
          c.part_left = true ∧ c.part_right = false
          ∧ c.synteny_left = ["c"] ∧ c.synteny_right = ["b"]) :=
  duplication_tie_break (ExtendedNumber.ofInt 2) (ExtendedNumber.ofInt 2)
    (ExtendedNumber.ofInt 3) ["a"] ["b"] ["c"] ["d"]
    (Or.inl rfl) (Or.inl rfl) (Or.inl rfl)
    (Or.inl ⟨by decide, by decide⟩)

lemma except_bind_ok {α β : Type} {x : Except Unit α} {f : α → Except Unit β}
    {b : β} (h : (x >>= f) = .ok b) : ∃ a, x = .ok a ∧ f a = .ok b := by
  cases x with
  | error e => simp [Bind.bind, Except.bind] at h
  | ok a =>
    refine ⟨a, rfl, ?_⟩
    simpa [Bind.bind, Except.bind] using h

lemma tracebackRest_preserves {recL recR : Except Unit ETree} {ev : Event}
    {info : Candidate} {t' : ETree}
    (h : tracebackRest recL recR ev info = .ok t') :
    t'.event.synteny = ev.synteny := by
  simp only [tracebackRest] at h
  split at h
  · exact congrArg (fun t => t.event.synteny) (Except.ok.inj h).symm
  · repeat' first
    | obtain ⟨_, _, h⟩ := except_bind_ok h
    | split at h
    all_goals exact congrArg (fun t => t.event.synteny) (Except.ok.inj h).symm

lemma traceback_preserves_synteny {cmap : List (Synteny × Candidate)}
    {ccs : List CandTree} {ev : Event} {cs : List ETree} {t' : ETree}
    (h : traceback (.node cmap ccs) (.node ev cs) = .ok t') :
    t'.event.synteny = ev.synteny := by
  rcases cs with _ | ⟨l, _ | ⟨r, _ | ⟨x, cs3⟩⟩⟩
  · exact congrArg (fun t => t.event.synteny) (Except.ok.inj h).symm
  · exact congrArg (fun t => t.event.synteny) (Except.ok.inj h).symm
  · rcases ccs with _ | ⟨cl, _ | ⟨cr, _ | ⟨cx, ccs3⟩⟩⟩
    · exact congrArg (fun t => t.event.synteny) (Except.ok.inj h).symm
    · exact congrArg (fun t => t.event.synteny) (Except.ok.inj h).symm
    · simp only [traceback] at h
      obtain ⟨info, _, h⟩ := except_bind_ok h
      split at h
      · obtain ⟨segL, _, h⟩ := except_bind_ok h
        obtain ⟨y1, hy1, h⟩ := except_bind_ok h
        have hys1 : y1.synteny = ev.synteny := by rw [← Except.ok.inj hy1]
        split at h
        · obtain ⟨segR, _, h⟩ := except_bind_ok h
          obtain ⟨y2, hy2, h⟩ := except_bind_ok h
          have hys2 : y2.synteny = y1.synteny := by rw [← Except.ok.inj hy2]
          rw [tracebackRest_preserves h, hys2, hys1]
        · obtain ⟨y2, hy2, h⟩ := except_bind_ok h
          have hys2 : y2.synteny = y1.synteny := by rw [← Except.ok.inj hy2]
          rw [tracebackRest_preserves h, hys2, hys1]
      · obtain ⟨y1, hy1, h⟩ := except_bind_ok h
        have hys1 : y1.synteny = ev.synteny := by rw [← Except.ok.inj hy1]
        split at h
        · obtain ⟨segR, _, h⟩ := except_bind_ok h
          obtain ⟨y2, hy2, h⟩ := except_bind_ok h
          have hys2 : y2.synteny = y1.synteny := by rw [← Except.ok.inj hy2]
          rw [tracebackRest_preserves h, hys2, hys1]
        · obtain ⟨y2, hy2, h⟩ := except_bind_ok h
          have hys2 : y2.synteny = y1.synteny := by rw [← Except.ok.inj hy2]
          rw [tracebackRest_preserves h, hys2, hys1]
    · exact congrArg (fun t => t.event.synteny) (Except.ok.inj h).symm
  · exact congrArg (fun t => t.event.synteny) (Except.ok.inj h).symm

/-- C1: for every event tree accepted by the ordered
super-reconciliation, the synteny stored at the root of the returned
tree equals the ancestral synteny affixed to the root of the input
tree: the traceback starts from the root synteny given as input and
never replaces it. -/
theorem super_reconciliation_preserves_root_synteny (t t' : ETree)
    (h : super_reconciliation t = .ok t') :
    t'.event.synteny = t.event.synteny := by
  obtain ⟨ev, cs⟩ := t
  simp only [super_reconciliation] at h
  obtain ⟨ct, _, h⟩ := except_bind_ok h
  obtain ⟨cmap, ccs⟩ := ct
  exact traceback_preserves_synteny h

theorem super_reconciliation_preserves_root_synteny_witness :
    super_reconciliation
        (.node ⟨EventType.Duplication, ["x", "y"], NoSegment⟩
          [.node ⟨EventType.None, ["x", "y"], NoSegment⟩ [],
            .node ⟨EventType.None, ["y"], NoSegment⟩ []])
      = .ok
        (.node ⟨EventType.Duplication, ["x", "y"], (1, 2)⟩
          [.node ⟨EventType.None, ["x", "y"], NoSegment⟩ [],
            .node ⟨EventType.None, ["y"], NoSegment⟩ []]) ∧
    (ETree.node ⟨EventType.Duplication, ["x", "y"], (1, 2)⟩
        [.node ⟨EventType.None, ["x", "y"], NoSegment⟩ [],
          .node ⟨EventType.None, ["y"], NoSegment⟩ []]).event.synteny
      = (ETree.node ⟨EventType.Duplication, ["x", "y"], NoSegment⟩
          [.node ⟨EventType.None, ["x", "y"], NoSegment⟩ [],
            .node ⟨EventType.None, ["y"], NoSegment⟩ []]).event.synteny :=
  ⟨rfl, super_reconciliation_preserves_root_synteny _ _ rfl⟩

/-! ### The unordered super-reconciliation
(`src/algo/unordered_super_reconciliation.cpp`).  Gene sets
(`std::set<Gene>`) are embedded as their canonical representation: the
sorted duplicate-free list of their elements, which is exactly the
iteration order of `std::set`. -/

/-- `std::string::operator<`: lexicographic comparison of the
character sequences (`char` by `char` in the C++; code point by code
point here, which coincides on ASCII gene names). -/
def strLtB : List Char → List Char → Bool
  | [], [] => false
  | [], _ :: _ => true
  | _ :: _, [] => false
  | a :: as, b :: bs =>
    if a.val < b.val then true
    else if b.val < a.val then false
    else strLtB as bs

/-- The total preorder used by `std::set<Gene>`: `a ≤ b` iff `¬(b < a)`. -/
def geneLe (a b : Gene) : Bool :=
  !(strLtB b.data a.data)

/-- Ordered insertion into a sorted list of genes. -/
def orderedInsertGene (x : Gene) : List Gene → List Gene
  | [] => [x]
  | y :: ys => if geneLe x y then x :: y :: ys else y :: orderedInsertGene x ys

/-- Insertion sort of a list of genes by `geneLe`. -/
def sortGenes : List Gene → List Gene
  | [] => []
  | x :: xs => orderedInsertGene x (sortGenes xs)

/-- Build a `std::set<Gene>` from a range of genes: sorted and
duplicate-free. -/
def mkGeneSet (s : List Gene) : List Gene :=
  (sortGenes s).dedup

/-- `operator+` on `std::set` (`src/util/set.hpp`): set union,
`std::set_union` of the two sorted ranges. -/
def setUnion (a b : List Gene) : List Gene :=
  mkGeneSet (a ++ b)

/-- `operator&` on `std::set` (`src/util/set.hpp`): set intersection,
the elements of `lhs` that also belong to `rhs`, in order. -/
def setInter (a b : List Gene) : List Gene :=
  a.filter (fun x => b.contains x)

/-- `operator-` on `std::set` (`src/util/set.hpp`): set difference,
the elements of `lhs` that do not belong to `rhs`, in order. -/
def setDiff (a b : List Gene) : List Gene :=
  a.filter (fun x => !(b.contains x))

/-- The `TreeInfo` dictionary of
`src/algo/unordered_super_reconciliation.cpp` maps every node of the
event tree to a `TreeInfoValue` (a gene set `genes` and a flag
`should_propagate`); we store it as a tree mirroring the event tree. -/
inductive ITree where
  | node : List Gene → Bool → List ITree → ITree

/-- The `genes` field of a node's `TreeInfoValue`. -/
def ITree.genes : ITree → List Gene
  | .node g _ _ => g

/-- The `should_propagate` field of a node's `TreeInfoValue`. -/
def ITree.propFlag : ITree → Bool
  | .node _ f _ => f

/-- The `should_propagate` condition computed by the initialization
pass for an internal node: the three disjuncts of the source, over the
gene sets and flags of the first two children and the event types of
the node and of those children. -/
def shouldPropFlag (ev : Event) (l r : ETree) (il ir : ITree) : Bool :=
  (((!decide (il.genes = setUnion il.genes ir.genes)) || il.propFlag)
      && ((!decide (ir.genes = setUnion il.genes ir.genes)) || ir.propFlag))
    || (decide (ev.type = EventType.Duplication)
      && (decide (l.event.type = EventType.Loss) || il.propFlag
        || decide (r.event.type = EventType.Loss) || ir.propFlag))
    || ((il.propFlag || decide (l.event.type = EventType.Loss))
      && (ir.propFlag || decide (r.event.type = EventType.Loss)))

mutual

/-- The initialization pass of
`src/algo/unordered_super_reconciliation.cpp` (postorder): a leaf gets
the set of genes of its input synteny and does not propagate; a unary
node raises `std::invalid_argument`; an internal node gets the union
of the gene sets of its first two children, and propagates under the
three disjunctive conditions of the source. -/
def initInfo : ETree → Except Unit ITree
  | .node ev cs =>
    match cs with
    | [] => pure (.node (mkGeneSet ev.synteny) false [])
    | [_] => throw ()
    | l :: r :: rest => do
      let il ← initInfo l
      let ir ← initInfo r
      let irest ← initInfoList rest
      pure (.node (setUnion il.genes ir.genes)
        (shouldPropFlag ev l r il ir) (il :: ir :: irest))

/-- Postorder traversal of the remaining children for `initInfo`. -/
def initInfoList : List ETree → Except Unit (List ITree)
  | [] => pure []
  | t :: ts => do
    let i ← initInfo t
    let is ← initInfoList ts
    pure (i :: is)

end

mutual

/-- The propagation pass of
`src/algo/unordered_super_reconciliation.cpp`, below the root: a node
whose `should_propagate` flag is set receives the gene set of its
parent; since the traversal is a preorder, the parent's gene set has
already been updated, so the updated set `pg` is what flows down. -/
def propagateInto (pg : List Gene) : ITree → ITree
  | .node g f cs =>
    let g2 := if f then pg else g
    .node g2 f (propagateIntoList g2 cs)

/-- `propagateInto` over a list of children. -/
def propagateIntoList (pg : List Gene) : List ITree → List ITree
  | [] => []
  | t :: ts => propagateInto pg t :: propagateIntoList pg ts

end

/-- The whole propagation pass: the root has no parent and keeps its
gene set; every other node is handled by `propagateInto`. -/
def propagate : ITree → ITree
  | .node g f cs => .node g f (propagateIntoList g cs)

/-- The node synteny `s1.s2.s3.s4` built by the binary case of the
resolution pass: see `resolveNode` below. -/
def resolveSynteny (gl gr g : List Gene) : Synteny :=
  setInter gl gr ++ setDiff gl gr ++ setDiff g (setUnion gl gr)
    ++ setDiff gr gl

/-- The body of the resolution pass at a binary node with a non-empty
gene set (`resolve` in `src/algo/unordered_super_reconciliation.cpp`):
`l2`/`r2` are the already-resolved children (the pass is a postorder),
`gl`/`gr`/`g` the gene sets of the two children and of the node.  The
node's synteny becomes `s1.s2.s3.s4`; a left child differing from its
parent is either covered by a segmental duplication (when the node is
a duplication) or wrapped in a loss, and symmetrically on the right,
with the duplication node free to pick its segment when the left child
incurs no loss. -/
def resolveNode (ev : Event) (l2 r2 : ETree) (gl gr g : List Gene) :
    ETree :=
  let s1 := setInter gl gr
  let s2 := setDiff gl gr
  let s3 := setDiff g (setUnion gl gr)
  let s4 := setDiff gr gl
  let sp := resolveSynteny gl gr g
  let sl := s1 ++ s2
  let sr := s1 ++ s4
  let total := s1.length + s2.length + s3.length + s4.length
  let step1 : Bool × Segment × ETree :=
    if sl ≠ sp ∧ l2.event.type ≠ EventType.Loss then
      if ev.type = EventType.Duplication then
        (true, (0, s1.length + s2.length), l2)
      else
        (false, ev.segment,
          .node ⟨EventType.Loss, sp, (s1.length + s2.length, total)⟩ [l2])
    else (false, ev.segment, l2)
  let step2 : Segment × ETree :=
    if ev.type = EventType.Duplication ∧ step1.1 = false then
      (if l2.event.type = EventType.Loss then
          (s1.length + s2.length + s3.length, total)
        else (0, s1.length), r2)
    else if sr ≠ sp ∧ r2.event.type ≠ EventType.Loss then
      (step1.2.1,
        .node ⟨EventType.Loss, sp,
          (s1.length, s1.length + s2.length + s3.length)⟩ [r2])
    else (step1.2.1, r2)
  .node ⟨ev.type, sp, step2.1⟩ [step1.2.2, step2.2]

mutual

/-- The resolution pass of
`src/algo/unordered_super_reconciliation.cpp` (postorder): a node with
an empty gene set loses its children and becomes a loss; a binary node
is handled by `resolveNode` after its children; any other node is left
unchanged (its children are still visited by the postorder). -/
def resolve : ETree → ITree → ETree
  | .node ev cs, .node g _ is =>
    if g = [] then .node { ev with type := EventType.Loss } []
    else
      match cs, is with
      | [l, r], [il, ir] =>
        resolveNode ev (resolve l il) (resolve r ir) il.genes ir.genes g
      | cs2, is2 => .node ev (resolveList cs2 is2)

/-- Postorder resolution of a list of children paired with their
information entries. -/
def resolveList : List ETree → List ITree → List ETree
  | [], _ => []
  | ts, [] => ts
  | t :: ts, i :: is => resolve t i :: resolveList ts is

end

/-- `unordered_super_reconciliation`
(`src/algo/unordered_super_reconciliation.cpp`): the three passes in
order.  The propagation and resolution passes mutate the tree and the
dictionary in place in the C++; here they are functions. -/
def unordered_super_reconciliation (t : ETree) : Except Unit ETree := do
  let info ← initInfo t
  pure (resolve t (propagate info))

/-- A valid input for the unordered super-reconciliation: every
internal node is binary and carries no synteny (only the leaves are
labelled). -/
def validInput : ETree → Bool
  | .node _ [] => true
  | .node ev [l, r] => decide (ev.synteny = []) && validInput l && validInput r
  | .node _ _ => false

mutual

/-- The property claimed of the output: on every parent-to-child edge,
the set of gene families of the parent's synteny contains every gene
family of the child's synteny. -/
def edgeSupersets : ETree → Bool
  | .node ev cs => childrenOk ev.synteny cs

/-- `edgeSupersets` for the children of a node whose synteny is `p`. -/
def childrenOk : Synteny → List ETree → Bool
  | _, [] => true
  | p, c :: cs =>
    c.event.synteny.all (fun x => p.contains x) && edgeSupersets c
      && childrenOk p cs

end

lemma ITree.genes_def (g : List Gene) (f : Bool) (cs : List ITree) :
    (ITree.node g f cs).genes = g := rfl

lemma ITree.propFlag_def (g : List Gene) (f : Bool) (cs : List ITree) :
    (ITree.node g f cs).propFlag = f := rfl

lemma orderedInsertGene_perm (x : Gene) (l : List Gene) :
    (orderedInsertGene x l).Perm (x :: l) := by
  induction l with
  | nil => exact List.Perm.refl _
  | cons y ys ih =>
    rw [orderedInsertGene]
    split
    · exact List.Perm.refl _
    · exact (ih.cons y).trans (List.Perm.swap x y ys)

lemma sortGenes_perm (l : List Gene) : (sortGenes l).Perm l := by
  induction l with
  | nil => exact List.Perm.refl _
  | cons x xs ih =>
    rw [sortGenes]
    exact (orderedInsertGene_perm x (sortGenes xs)).trans (ih.cons x)

lemma toFinset_mkGeneSet (l : List Gene) :
    (mkGeneSet l).toFinset = l.toFinset := by
  ext a
  simp only [mkGeneSet, List.mem_toFinset, List.mem_dedup]
  exact (sortGenes_perm l).mem_iff

lemma toFinset_setUnion (a b : List Gene) :
    (setUnion a b).toFinset = a.toFinset ∪ b.toFinset := by
  rw [setUnion, toFinset_mkGeneSet, List.toFinset_append]

lemma toFinset_setInter (a b : List Gene) :
    (setInter a b).toFinset = a.toFinset ∩ b.toFinset := by
  ext x
  simp [setInter, List.mem_filter, List.elem_iff]

lemma toFinset_setDiff (a b : List Gene) :
    (setDiff a b).toFinset = a.toFinset \ b.toFinset := by
  ext x
  simp [setDiff, List.mem_filter, List.elem_iff]

lemma all_contains_of_subset {a p : List Gene}
    (h : a.toFinset ⊆ p.toFinset) :
    (a.all fun x => p.contains x) = true := by
  rw [List.all_eq_true]
  intro x hx
  have hxp := h (List.mem_toFinset.mpr hx)
  exact List.elem_iff.mpr (List.mem_toFinset.mp hxp)

lemma toFinset_resolveSynteny {gl gr g : List Gene}
    (hgl : gl.toFinset ⊆ g.toFinset) (hgr : gr.toFinset ⊆ g.toFinset) :
    (resolveSynteny gl gr g).toFinset = g.toFinset := by
  ext x
  have h1 : x ∈ gl.toFinset → x ∈ g.toFinset := fun h => hgl h
  have h2 : x ∈ gr.toFinset → x ∈ g.toFinset := fun h => hgr h
  simp only [resolveSynteny, List.toFinset_append, toFinset_setInter,
    toFinset_setDiff, toFinset_setUnion, Finset.mem_union,
    Finset.mem_inter, Finset.mem_sdiff]
  tauto

/-- The invariant tying an input event tree to its information tree
through the passes: leaves carry exactly the genes of their synteny
and never propagate, internal nodes are binary, unlabelled, and their
gene set contains the gene sets of both children. -/
def consistent : ETree → ITree → Prop
  | .node ev [], .node g f [] => g.toFinset = ev.synteny.toFinset ∧ f = false
  | .node ev [l, r], .node g _ [il, ir] =>
      ev.synteny = [] ∧ il.genes.toFinset ⊆ g.toFinset
        ∧ ir.genes.toFinset ⊆ g.toFinset ∧ consistent l il ∧ consistent r ir
  | _, _ => False

lemma consistent_leaf (ev : Event) (g : List Gene) (f : Bool) :
    consistent (.node ev []) (.node g f [])
      ↔ (g.toFinset = ev.synteny.toFinset ∧ f = false) := Iff.rfl

lemma consistent_binary (ev : Event) (l r : ETree) (g : List Gene)
    (f : Bool) (il ir : ITree) :
    consistent (.node ev [l, r]) (.node g f [il, ir])
      ↔ (ev.synteny = [] ∧ il.genes.toFinset ⊆ g.toFinset
        ∧ ir.genes.toFinset ⊆ g.toFinset ∧ consistent l il
        ∧ consistent r ir) := Iff.rfl

lemma initInfo_leaf (ev : Event) :
    initInfo (.node ev []) = pure (.node (mkGeneSet ev.synteny) false []) :=
  rfl

lemma initInfo_binary (ev : Event) (l r : ETree) :
    initInfo (.node ev [l, r]) = (do
      let il ← initInfo l
      let ir ← initInfo r
      pure (.node (setUnion il.genes ir.genes)
        (shouldPropFlag ev l r il ir) [il, ir])) := rfl

lemma validInput_leaf (ev : Event) : validInput (.node ev []) = true := rfl

lemma validInput_unary (ev : Event) (x : ETree) :
    validInput (.node ev [x]) = false := rfl

lemma validInput_binary (ev : Event) (l r : ETree) :
    validInput (.node ev [l, r])
      = (decide (ev.synteny = []) && validInput l && validInput r) := rfl

lemma validInput_wide (ev : Event) (a b c : ETree) (rest : List ETree) :
    validInput (.node ev (a :: b :: c :: rest)) = false := rfl

lemma initInfo_consistent : ∀ (n : Nat) (t : ETree), sizeOf t ≤ n →
    validInput t = true → ∀ it, initInfo t = .ok it → consistent t it := by
  intro n
  induction n with
  | zero =>
    intro t ht
    cases t with
    | node ev cs => simp at ht
  | succ n ih =>
    intro t ht hv it hinit
    rcases t with ⟨ev, _ | ⟨l, _ | ⟨r, _ | ⟨x, cs3⟩⟩⟩⟩
    · rw [initInfo_leaf] at hinit
      have h2 := Except.ok.inj hinit
      rw [← h2, consistent_leaf]
      exact ⟨toFinset_mkGeneSet ev.synteny, rfl⟩
    · rw [validInput_unary] at hv
      simp at hv
    · rw [validInput_binary] at hv
      simp only [Bool.and_eq_true, decide_eq_true_eq] at hv
      obtain ⟨⟨hsyn, hvl⟩, hvr⟩ := hv
      have hszl : sizeOf l ≤ n := by
        have : sizeOf (ETree.node ev [l, r]) = 1 + sizeOf ev
            + (1 + sizeOf l + (1 + sizeOf r + 1)) := by simp
        have hpos : 0 < sizeOf ev := by cases ev; simp
        omega
      have hszr : sizeOf r ≤ n := by
        have : sizeOf (ETree.node ev [l, r]) = 1 + sizeOf ev
            + (1 + sizeOf l + (1 + sizeOf r + 1)) := by simp
        have hpos : 0 < sizeOf ev := by cases ev; simp
        omega
      rw [initInfo_binary] at hinit
      obtain ⟨il, hil, hinit⟩ := except_bind_ok hinit
      obtain ⟨ir, hir, hinit⟩ := except_bind_ok hinit
      have h2 := Except.ok.inj hinit
      rw [← h2, consistent_binary]
      refine ⟨hsyn, ?_, ?_, ih l hszl hvl il hil, ih r hszr hvr ir hir⟩
      · rw [toFinset_setUnion]
        exact Finset.subset_union_left
      · rw [toFinset_setUnion]
        exact Finset.subset_union_right
    · rw [validInput_wide] at hv
      simp at hv

lemma propagateInto_node (pg g : List Gene) (f : Bool) (cs : List ITree) :
    propagateInto pg (.node g f cs)
      = .node (if f then pg else g) f
        (propagateIntoList (if f then pg else g) cs) := rfl

lemma propagateIntoList_pair (pg : List Gene) (il ir : ITree) :
    propagateIntoList pg [il, ir]
      = [propagateInto pg il, propagateInto pg ir] := rfl

lemma propagateInto_genes (pg : List Gene) (it : ITree) :
    (propagateInto pg it).genes
      = if it.propFlag then pg else it.genes := by
  rcases it with ⟨g, f, cs⟩
  rfl

lemma propagateInto_consistent : ∀ (n : Nat) (t : ETree) (it : ITree)
    (pg : List Gene), sizeOf t ≤ n → consistent t it →
    it.genes.toFinset ⊆ pg.toFinset →
    consistent t (propagateInto pg it) := by
  intro n
  induction n with
  | zero =>
    intro t it pg ht
    cases t with
    | node ev cs => simp at ht
  | succ n ih =>
    intro t it pg ht hc hsub
    rcases t with ⟨ev, _ | ⟨l, _ | ⟨r, _ | ⟨x, cs3⟩⟩⟩⟩ <;>
      rcases it with ⟨g, f, _ | ⟨il, _ | ⟨ir, _ | ⟨ix, is3⟩⟩⟩⟩ <;>
      try exact False.elim hc
    · obtain ⟨hg, hf⟩ := (consistent_leaf ev g f).mp hc
      subst hf
      rw [propagateInto_node]
      exact (consistent_leaf ev g false).mpr ⟨hg, rfl⟩
    · obtain ⟨hsyn, hl, hr, hcl, hcr⟩ := (consistent_binary ev l r g f il ir).mp hc
      have hszl : sizeOf l ≤ n := by
        have : sizeOf (ETree.node ev [l, r]) = 1 + sizeOf ev
            + (1 + sizeOf l + (1 + sizeOf r + 1)) := by simp
        have hpos : 0 < sizeOf ev := by cases ev; simp
        omega
      have hszr : sizeOf r ≤ n := by
        have : sizeOf (ETree.node ev [l, r]) = 1 + sizeOf ev
            + (1 + sizeOf l + (1 + sizeOf r + 1)) := by simp
        have hpos : 0 < sizeOf ev := by cases ev; simp
        omega
      rw [propagateInto_node, propagateIntoList_pair]
      have hg2 : g.toFinset ⊆ (if f = true then pg else g).toFinset := by
        by_cases hf : f = true
        · rw [if_pos hf]
          simpa [ITree.genes_def] using hsub
        · rw [if_neg hf]
      rw [consistent_binary]
      refine ⟨hsyn, ?_, ?_, ?_, ?_⟩
      · rw [propagateInto_genes]
        by_cases hfl : il.propFlag = true
        · rw [if_pos hfl]
        · rw [if_neg hfl]
          exact hl.trans hg2
      · rw [propagateInto_genes]
        by_cases hfl : ir.propFlag = true
        · rw [if_pos hfl]
        · rw [if_neg hfl]
          exact hr.trans hg2
      · exact ih l il _ hszl hcl (hl.trans hg2)
      · exact ih r ir _ hszr hcr (hr.trans hg2)

lemma propagate_consistent {t : ETree} {it : ITree}
    (hc : consistent t it) : consistent t (propagate it) := by
  rcases t with ⟨ev, _ | ⟨l, _ | ⟨r, _ | ⟨x, cs3⟩⟩⟩⟩ <;>
    rcases it with ⟨g, f, _ | ⟨il, _ | ⟨ir, _ | ⟨ix, is3⟩⟩⟩⟩ <;>
    try exact False.elim hc
  · exact hc
  · obtain ⟨hsyn, hl, hr, hcl, hcr⟩ := (consistent_binary ev l r g f il ir).mp hc
    have hprop : propagate (ITree.node g f [il, ir])
        = .node g f [propagateInto g il, propagateInto g ir] := rfl
    rw [hprop, consistent_binary]
    refine ⟨hsyn, ?_, ?_,
      propagateInto_consistent (sizeOf l) l il g (Nat.le_refl _) hcl hl,
      propagateInto_consistent (sizeOf r) r ir g (Nat.le_refl _) hcr hr⟩
    · rw [propagateInto_genes]
      by_cases hfl : il.propFlag = true
      · rw [if_pos hfl]
      · rw [if_neg hfl]
        exact hl
    · rw [propagateInto_genes]
      by_cases hfl : ir.propFlag = true
      · rw [if_pos hfl]
      · rw [if_neg hfl]
        exact hr

lemma resolve_leaf (ev : Event) (g : List Gene) (f : Bool) :
    resolve (.node ev []) (.node g f [])
      = if g = [] then .node { ev with type := EventType.Loss } []
        else .node ev [] := rfl

lemma resolve_binary (ev : Event) (l r : ETree) (g : List Gene) (f : Bool)
    (il ir : ITree) :
    resolve (.node ev [l, r]) (.node g f [il, ir])
      = if g = [] then .node { ev with type := EventType.Loss } []
        else resolveNode ev (resolve l il) (resolve r ir)
          il.genes ir.genes g := rfl

lemma edgeSupersets_node (ev : Event) (cs : List ETree) :
    edgeSupersets (.node ev cs) = childrenOk ev.synteny cs := rfl

lemma childrenOk_nil (p : Synteny) : childrenOk p [] = true := rfl

lemma childrenOk_cons (p : Synteny) (c : ETree) (cs : List ETree) :
    childrenOk p (c :: cs)
      = (c.event.synteny.all (fun x => p.contains x)
        && edgeSupersets c && childrenOk p cs) := by
  rcases c with ⟨cev, ccs⟩
  rfl

lemma childrenOk_pair (p : Synteny) (a b : ETree) :
    childrenOk p [a, b] = (childrenOk p [a] && childrenOk p [b]) := by
  simp [childrenOk_cons, childrenOk_nil, Bool.and_assoc]

lemma resolveNode_shape (ev : Event) (l2 r2 : ETree) (gl gr g : List Gene) :
    ∃ seg segL segR LT RT,
      resolveNode ev l2 r2 gl gr g
          = .node ⟨ev.type, resolveSynteny gl gr g, seg⟩ [LT, RT]
        ∧ (LT = l2
          ∨ LT = .node ⟨EventType.Loss, resolveSynteny gl gr g, segL⟩ [l2])
        ∧ (RT = r2
          ∨ RT = .node ⟨EventType.Loss, resolveSynteny gl gr g, segR⟩ [r2]) := by
  simp only [resolveNode]
  repeat' split
  all_goals first
    | exact ⟨_, (0, 0), (0, 0), _, _, rfl, Or.inl rfl, Or.inl rfl⟩
    | exact ⟨_, (0, 0), _, _, _, rfl, Or.inl rfl, Or.inr rfl⟩
    | exact ⟨_, _, (0, 0), _, _, rfl, Or.inr rfl, Or.inl rfl⟩
    | exact ⟨_, _, _, _, _, rfl, Or.inr rfl, Or.inr rfl⟩
    | simp_all

lemma resolveNode_spec {ev : Event} {l2 r2 : ETree} {gl gr g : List Gene}
    (hl2 : l2.event.synteny.toFinset = gl.toFinset)
    (hr2 : r2.event.synteny.toFinset = gr.toFinset)
    (hgl : gl.toFinset ⊆ g.toFinset) (hgr : gr.toFinset ⊆ g.toFinset)
    (hel : edgeSupersets l2 = true) (her : edgeSupersets r2 = true) :
    (resolveNode ev l2 r2 gl gr g).event.synteny.toFinset = g.toFinset
      ∧ edgeSupersets (resolveNode ev l2 r2 gl gr g) = true := by
  obtain ⟨seg, segL, segR, LT, RT, heq, hLT, hRT⟩ :=
    resolveNode_shape ev l2 r2 gl gr g
  rw [heq]
  have hsp := toFinset_resolveSynteny hgl hgr
  refine ⟨hsp, ?_⟩
  have hl2s : l2.event.synteny.toFinset ⊆ (resolveSynteny gl gr g).toFinset := by
    rw [hsp]
    exact hl2 ▸ hgl
  have hr2s : r2.event.synteny.toFinset ⊆ (resolveSynteny gl gr g).toFinset := by
    rw [hsp]
    exact hr2 ▸ hgr
  have hLok : childrenOk (resolveSynteny gl gr g) [LT] = true := by
    rcases hLT with rfl | rfl
    · rw [childrenOk_cons, childrenOk_nil,
        all_contains_of_subset hl2s, hel]
      rfl
    · rw [childrenOk_cons, childrenOk_nil, edgeSupersets_node]
      show ((resolveSynteny gl gr g).all _ && childrenOk _ [l2] && true) = true
      rw [childrenOk_cons, childrenOk_nil,
        all_contains_of_subset hl2s, hel,
        all_contains_of_subset (Finset.Subset.refl _)]
      rfl
  have hRok : childrenOk (resolveSynteny gl gr g) [RT] = true := by
    rcases hRT with rfl | rfl
    · rw [childrenOk_cons, childrenOk_nil,
        all_contains_of_subset hr2s, her]
      rfl
    · rw [childrenOk_cons, childrenOk_nil, edgeSupersets_node]
      show ((resolveSynteny gl gr g).all _ && childrenOk _ [r2] && true) = true
      rw [childrenOk_cons, childrenOk_nil,
        all_contains_of_subset hr2s, her,
        all_contains_of_subset (Finset.Subset.refl _)]
      rfl
  rw [edgeSupersets_node]
  show childrenOk (resolveSynteny gl gr g) [LT, RT] = true
  rw [childrenOk_pair, hLok, hRok]
  rfl

lemma resolve_spec : ∀ (n : Nat) (t : ETree) (it : ITree), sizeOf t ≤ n →
    consistent t it →
    (resolve t it).event.synteny.toFinset = it.genes.toFinset
      ∧ edgeSupersets (resolve t it) = true := by
  intro n
  induction n with
  | zero =>
    intro t it ht
    cases t with
    | node ev cs => simp at ht
  | succ n ih =>
    intro t it ht hc
    rcases t with ⟨ev, _ | ⟨l, _ | ⟨r, _ | ⟨x, cs3⟩⟩⟩⟩ <;>
      rcases it with ⟨g, f, _ | ⟨il, _ | ⟨ir, _ | ⟨ix, is3⟩⟩⟩⟩ <;>
      try exact False.elim hc
    · obtain ⟨hg, hf⟩ := (consistent_leaf ev g f).mp hc
      rw [resolve_leaf]
      split
      · exact ⟨hg.symm, rfl⟩
      · exact ⟨hg.symm, rfl⟩
    · obtain ⟨hsyn, hl, hr, hcl, hcr⟩ :=
        (consistent_binary ev l r g f il ir).mp hc
      have hszl : sizeOf l ≤ n := by
        have : sizeOf (ETree.node ev [l, r]) = 1 + sizeOf ev
            + (1 + sizeOf l + (1 + sizeOf r + 1)) := by simp
        have hpos : 0 < sizeOf ev := by cases ev; simp
        omega
      have hszr : sizeOf r ≤ n := by
        have : sizeOf (ETree.node ev [l, r]) = 1 + sizeOf ev
            + (1 + sizeOf l + (1 + sizeOf r + 1)) := by simp
        have hpos : 0 < sizeOf ev := by cases ev; simp
        omega
      obtain ⟨ihl1, ihl2⟩ := ih l il hszl hcl
      obtain ⟨ihr1, ihr2⟩ := ih r ir hszr hcr
      rw [resolve_binary]
      split
      · next hge =>
        subst hge
        constructor
        · show ev.synteny.toFinset = List.toFinset []
          rw [hsyn]
        · rfl
      · exact resolveNode_spec ihl1 ihr1 hl hr ihl2 ihr2

/-- C5: every tree produced by the unordered super-reconciliation from
a valid input (binary internal nodes, only leaves labelled) satisfies,
on every parent-to-child edge, that the set of gene families of the
parent synteny contains the set of gene families of the child
synteny. -/
theorem unordered_super_reconciliation_edge_superset (t t' : ETree)
    (hv : validInput t = true)
    (h : unordered_super_reconciliation t = .ok t') :
    edgeSupersets t' = true := by
  simp only [unordered_super_reconciliation] at h
  obtain ⟨it, hinit, h⟩ := except_bind_ok h
  have ht' : t' = resolve t (propagate it) := (Except.ok.inj h).symm
  have hc := initInfo_consistent (sizeOf t) t (Nat.le_refl _) hv it hinit
  have hc2 := propagate_consistent hc
  rw [ht']
  exact (resolve_spec (sizeOf t) t (propagate it) (Nat.le_refl _) hc2).2

theorem unordered_super_reconciliation_edge_superset_witness :
    edgeSupersets
      (.node ⟨EventType.Speciation, ["y", "x"], (0, 0)⟩
        [.node ⟨EventType.None, ["x", "y"], (0, 0)⟩ [],
          .node ⟨EventType.Loss, ["y", "x"], (1, 2)⟩
            [.node ⟨EventType.None, ["y"], (0, 0)⟩ []]]) = true :=
  unordered_super_reconciliation_edge_superset
    (.node ⟨EventType.Speciation, [], (0, 0)⟩
      [.node ⟨EventType.None, ["x", "y"], (0, 0)⟩ [],
        .node ⟨EventType.None, ["y"], (0, 0)⟩ []])
    _ rfl rfl
